import Mathlib

/-!
Verification development for the chessGUI repository core:

* the `SimpleAI` negamax / alpha-beta search engine
  (src/app/engine/simple_ai.py), and
* the `MoveHistory` timeline store (src/app/history.py).

The Python sources are shallowly embedded: boards are values and the
in-place mutation of the shared board (push/pop) becomes explicit state
passing; Python exceptions become `Except`; machine integers are `Int`
(Python ints are unbounded, so no wraparound is modelled); the external
python-chess library (the "rules authority" of the spec) is a parameter
structure supplying legal moves, move application and terminal queries.
-/

/-! ## Scores

`SimpleAI` mixes Python ints with `math.inf` / `-math.inf` (initial
`best`, `alpha`, `beta`), so a score is an integer extended with both
infinities. -/

/-- A search score: an integer or one of the two infinities. -/
abbrev Score : Type := WithBot (WithTop ℤ)

/-- A finite score (a plain Python int). -/
abbrev sfin (z : ℤ) : Score := ((z : WithTop ℤ) : Score)

/-- Negation of a score: Python unary minus on ints and on `math.inf`. -/
def sneg (a : Score) : Score :=
  WithBot.recBotCoe (⊤ : Score)
    (fun x => WithTop.recTopCoe (⊥ : Score) (fun z => sfin (-z)) x) a

@[simp] theorem sneg_bot : sneg ⊥ = ⊤ := rfl

@[simp] theorem sneg_top : sneg ⊤ = ⊥ := rfl

@[simp] theorem sneg_sfin (z : ℤ) : sneg (sfin z) = sfin (-z) := rfl

@[simp] theorem sfin_ne_bot (z : ℤ) : sfin z ≠ ⊥ := by
  simp

@[simp] theorem sfin_ne_top (z : ℤ) : sfin z ≠ ⊤ := by
  intro h
  exact WithTop.coe_ne_top (WithBot.coe_injective h)

/-- Every score is `⊥`, `⊤` or finite. -/
theorem score_cases (a : Score) : a = ⊥ ∨ a = ⊤ ∨ ∃ z : ℤ, a = sfin z := by
  induction a using WithBot.recBotCoe with
  | bot => exact Or.inl rfl
  | coe x =>
    induction x using WithTop.recTopCoe with
    | top => exact Or.inr (Or.inl rfl)
    | coe z => exact Or.inr (Or.inr ⟨z, rfl⟩)

@[simp] theorem sneg_sneg (a : Score) : sneg (sneg a) = a := by
  rcases score_cases a with h | h | ⟨z, h⟩ <;> subst h <;> simp

@[simp] theorem sfin_le_sfin {z w : ℤ} : sfin z ≤ sfin w ↔ z ≤ w := by
  simp

@[simp] theorem sfin_lt_sfin {z w : ℤ} : sfin z < sfin w ↔ z < w := by
  simp

theorem sneg_le_sneg_iff {a b : Score} : sneg a ≤ sneg b ↔ b ≤ a := by
  rcases score_cases a with h | h | ⟨z, h⟩ <;> subst h <;>
    rcases score_cases b with h | h | ⟨w, h⟩ <;> subst h <;>
    first
      | (rw [sneg_sfin, sneg_sfin, sfin_le_sfin, sfin_le_sfin]; omega)
      | simp [le_bot_iff, top_le_iff, bot_ne_top]

theorem sneg_lt_sneg_iff {a b : Score} : sneg a < sneg b ↔ b < a := by
  constructor
  · intro h
    by_contra hba
    rcases lt_or_le b a with h1 | h1
    · exact hba h1
    · exact absurd h (not_lt.mpr (sneg_le_sneg_iff.mpr h1))
  · intro h
    rcases lt_or_le (sneg a) (sneg b) with h1 | h1
    · exact h1
    · exact absurd (sneg_le_sneg_iff.mp h1) (not_le.mpr h)

/-! ## SimpleAI.evaluate (simple_ai.py, lines 12-26)

`evaluate` only reads the board through python-chess queries; an
`EvalPos` records the result of each query it makes. -/

/-- The piece types appearing in `SimpleAI.PIECE_VAL`. -/
inductive PieceType where
  | pawn | knight | bishop | rook | queen | king
deriving DecidableEq, Repr

/-- `SimpleAI.PIECE_VAL` (simple_ai.py, lines 7-10). -/
def PIECE_VAL : PieceType → ℤ
  | .pawn => 100
  | .knight => 320
  | .bishop => 330
  | .rook => 500
  | .queen => 900
  | .king => 0

/-- The answers of the python-chess queries made by `SimpleAI.evaluate`:
`turn` is `board.turn` (`true` = White to move, `chess.WHITE`);
`pieceMap` lists `(piece_type, color)` of the values of
`board.piece_map()` (`color = true` for White); `legalMovesCount` is
`len(list(board.legal_moves))`. -/
structure EvalPos where
  isCheckmate : Bool
  isStalemate : Bool
  isInsufficientMaterial : Bool
  canClaimDraw : Bool
  turn : Bool
  pieceMap : List (PieceType × Bool)
  legalMovesCount : ℕ
  isCheck : Bool
deriving DecidableEq, Repr

/-- Shallow embedding of `SimpleAI.evaluate` (simple_ai.py, lines 12-26),
statement for statement. -/
def evaluate (p : EvalPos) : ℤ :=
  if p.isCheckmate then (if p.turn then -10000 else 10000)
  else if p.isStalemate || p.isInsufficientMaterial || p.canClaimDraw then 0
  else
    let score : ℤ := p.pieceMap.foldl
      (fun acc pc => acc + (if pc.2 then PIECE_VAL pc.1 else -(PIECE_VAL pc.1))) 0
    let mob : ℤ := p.legalMovesCount
    let score := score + (if p.turn then mob * 2 else -mob * 2)
    let score := score + (if p.isCheck then (if p.turn then (15 : ℤ) else -15) else 0)
    score

/-- C8's material term, written from the spec's words: the sum over all
pieces of their material value, positive for White, negative for Black. -/
def materialSpec (p : EvalPos) : ℤ :=
  (p.pieceMap.map (fun pc => if pc.2 then PIECE_VAL pc.1 else -(PIECE_VAL pc.1))).sum

/-- C8's mobility term: 2 per legal move of the side to move, added on
White's turn and subtracted on Black's. -/
def mobilitySpec (p : EvalPos) : ℤ :=
  (if p.turn then 1 else -1) * (2 * (p.legalMovesCount : ℤ))

/-- C8's in-check term: 15 with the turn-based sign when in check. -/
def checkBonusSpec (p : EvalPos) : ℤ :=
  if p.isCheck then (if p.turn then 1 else -1) * 15 else 0

/-- The evaluation as claim C8 describes it, assembled from the spec's
wording (checkmate and draw cases first, then the three terms). -/
def evaluateSpec (p : EvalPos) : ℤ :=
  if p.isCheckmate then (if p.turn then -10000 else 10000)
  else if p.isStalemate || p.isInsufficientMaterial || p.canClaimDraw then 0
  else materialSpec p + mobilitySpec p + checkBonusSpec p

theorem foldl_add_eq_sum {α : Type} (f : α → ℤ) (l : List α) (c : ℤ) :
    l.foldl (fun acc x => acc + f x) c = c + (l.map f).sum := by
  induction l generalizing c with
  | nil => simp
  | cons x xs ih => simp [ih, add_assoc]

/-- C8: for every position, `SimpleAI.evaluate` returns -10000 on
checkmate with White to move and +10000 on checkmate with Black to move;
0 on stalemate, insufficient material or a claimable draw; otherwise the
signed material sum (pawn=100, knight=320, bishop=330, rook=500,
queen=900, king=0) plus 2 per legal move of the side to move with the
turn-based sign, plus 15 with the turn-based sign when in check. -/
theorem evaluate_matches_spec (p : EvalPos) : evaluate p = evaluateSpec p := by
  rcases p with ⟨cm, st, im, cd, turn, pm, mob, chk⟩
  unfold evaluate evaluateSpec materialSpec mobilitySpec checkBonusSpec
  cases cm <;> cases st <;> cases im <;> cases cd <;> cases turn <;> cases chk <;>
    simp [foldl_add_eq_sum] <;> ring

/-! ## MoveHistory (history.py)

The store is generic in the move-record type `μ` (MoveMeta) and the
exported board-state type `σ`: history.py receives `get_state`,
`set_state` and `apply_move` as constructor arguments and never looks
inside either type.  In this model states are values, so the
`get_state`/`set_state` adapters are the identity and `copy.deepcopy`
of a state is the state itself; the bound on-change callback is
modelled by returning the `(cursor, total)` notifications an operation
fires. -/

/-- The errors `MoveHistory.goto` can raise: `IndexError` for an
out-of-range target, `KeyError` for a failed snapshot-dict lookup. -/
inductive HistError where
  | range
  | key
deriving DecidableEq, Repr

/-- The state of a `MoveHistory` object: `moves` is `self._moves`,
`snaps` is the dict `self._snapshots` as an association list with
unique keys, `cursor` is `self._cursor` and `stride` is
`self.snapshot_stride`. -/
structure MoveHistory (μ σ : Type) where
  moves : List μ
  snaps : List (ℕ × σ)
  cursor : ℕ
  stride : ℕ
deriving DecidableEq, Repr

/-- `MoveHistory.__init__` (history.py, lines 20-34): empty history with
`snapshot_stride = max(1, snapshot_stride)`. -/
def MoveHistory.init (μ σ : Type) (snapshotStride : ℤ) : MoveHistory μ σ :=
  { moves := [], snaps := [], cursor := 0, stride := (max 1 snapshotStride).toNat }

/-- `self._fire()`: the notification `(cursor, total)` delivered to a
bound observer. -/
def MoveHistory.fire {μ σ : Type} (t : MoveHistory μ σ) : List (ℕ × ℕ) :=
  [(t.cursor, t.moves.length)]

/-- Python dict assignment `self._snapshots[k] = v`: overwrite the key if
present, else add it.  (Filtering the key out and appending is
observationally the same: goto only reads the dict through key lookup
and through the set of keys.) -/
def snapsInsert {σ : Type} (snaps : List (ℕ × σ)) (k : ℕ) (v : σ) : List (ℕ × σ) :=
  snaps.filter (fun kv => decide (kv.1 ≠ k)) ++ [(k, v)]

/-- Python dict lookup `self._snapshots[k]` (None = KeyError). -/
def snapsLookup {σ : Type} : List (ℕ × σ) → ℕ → Option σ
  | [], _ => none
  | (k', v) :: rest, k => if k' = k then some v else snapsLookup rest k

/-- `MoveHistory.reset` (history.py, lines 43-48): clear everything,
snapshot the current state at ply 0, fire. -/
def MoveHistory.reset {μ σ : Type} (t : MoveHistory μ σ) (board : σ) :
    MoveHistory μ σ × List (ℕ × ℕ) :=
  let t1 : MoveHistory μ σ := { t with moves := [], snaps := [(0, board)], cursor := 0 }
  (t1, t1.fire)

/-- `MoveHistory.push` (history.py, lines 50-60): if the cursor is
behind the end, drop the records at index ≥ cursor and the snapshots
with key > cursor; append the move, advance the cursor, snapshot when
the new cursor is a multiple of the stride, fire. -/
def MoveHistory.push {μ σ : Type} (t : MoveHistory μ σ) (board : σ) (move : μ) :
    MoveHistory μ σ × List (ℕ × ℕ) :=
  let t1 := if t.cursor < t.moves.length then
      { t with moves := t.moves.take t.cursor,
               snaps := t.snaps.filter (fun kv => decide (kv.1 ≤ t.cursor)) }
    else t
  let t2 := { t1 with moves := t1.moves ++ [move], cursor := t.cursor + 1 }
  let t3 := if (t.cursor + 1) % t.stride = 0 then
      { t2 with snaps := snapsInsert t2.snaps (t.cursor + 1) board }
    else t2
  (t3, t3.fire)

/-- The snapshot keys `self._snapshots.keys()`. -/
def MoveHistory.keys {μ σ : Type} (t : MoveHistory μ σ) : List ℕ :=
  t.snaps.map Prod.fst

/-- `max([i for i in self._snapshots.keys() if i <= target_index], default=0)`:
for ℕ keys the max-with-default-0 is a fold of `max` over 0. -/
def MoveHistory.floorSnap {μ σ : Type} (t : MoveHistory μ σ) (target : ℕ) : ℕ :=
  (t.keys.filter (fun i => decide (i ≤ target))).foldr max 0

/-- `MoveHistory.goto` (history.py, lines 68-78): range-check the
target, no-op when it equals the cursor, otherwise restore the floor
snapshot, replay the records between the snapshot ply and the target,
move the cursor there and fire. -/
def MoveHistory.goto {μ σ : Type} (applyMove : σ → μ → σ) (t : MoveHistory μ σ)
    (board : σ) (targetIndex : ℤ) :
    Except HistError (σ × MoveHistory μ σ × List (ℕ × ℕ)) :=
  if ¬ (0 ≤ targetIndex ∧ targetIndex ≤ (t.moves.length : ℤ)) then .error .range
  else
    let k := targetIndex.toNat
    if k = t.cursor then .ok (board, t, [])
    else
      match snapsLookup t.snaps (t.floorSnap k) with
      | none => .error .key
      | some s =>
        let board1 := ((t.moves.take k).drop (t.floorSnap k)).foldl applyMove s
        let t1 := { t with cursor := k }
        .ok (board1, t1, t1.fire)

/-! ### C10, C5, C7: direct contracts of the timeline operations -/

/-- C10: the constructor stores `max(1, snapshot_stride)` (so the stride
is at least 1 for every integer argument, zero and negative included),
and `reset`/`push`/`goto` never change it; hence the `cursor % stride`
in `push` never divides by zero. -/
theorem stride_clamped_and_constant (μ σ : Type) :
    (∀ s : ℤ, (((MoveHistory.init μ σ s).stride : ℤ) = max 1 s)
      ∧ 1 ≤ (MoveHistory.init μ σ s).stride)
    ∧ (∀ (t : MoveHistory μ σ) (b : σ), ((t.reset b).1).stride = t.stride)
    ∧ (∀ (t : MoveHistory μ σ) (b : σ) (mv : μ), ((t.push b mv).1).stride = t.stride)
    ∧ (∀ (am : σ → μ → σ) (t : MoveHistory μ σ) (b : σ) (k : ℤ)
        (r : σ × MoveHistory μ σ × List (ℕ × ℕ)),
        MoveHistory.goto am t b k = .ok r → r.2.1.stride = t.stride) := by
  refine ⟨fun s => ⟨?_, ?_⟩, fun t b => rfl, fun t b mv => ?_, fun am t b k r h => ?_⟩
  · simp [MoveHistory.init]
  · simp [MoveHistory.init]
  · unfold MoveHistory.push
    dsimp only
    split <;> split <;> rfl
  · unfold MoveHistory.goto at h
    dsimp only at h
    split at h
    · exact absurd h (by simp)
    · split at h
      · cases h
        rfl
      · split at h
        · exact absurd h (by simp)
        · cases h
          rfl

/-- C10 witness at concrete inputs: a negative stride argument is clamped
to 1, and a successful `goto` keeps the stride. -/
theorem stride_clamped_and_constant_witness :
    MoveHistory.goto (fun (s : ℕ) (_ : ℕ) => s)
        { moves := [4], snaps := [(0, 3)], cursor := 1, stride := 1 } 9 0
      = .ok (3, { moves := [4], snaps := [(0, 3)], cursor := 0, stride := 1 }, [(0, 1)])
    ∧ ((MoveHistory.init ℕ ℕ (-5)).stride : ℤ) = max 1 (-5)
    ∧ ({ moves := [4], snaps := [(0, 3)], cursor := 0, stride := 1 }
        : MoveHistory ℕ ℕ).stride = 1 := by
  refine ⟨rfl, (stride_clamped_and_constant ℕ ℕ).1 (-5) |>.1, ?_⟩
  have h := (stride_clamped_and_constant ℕ ℕ).2.2.2
    (fun (s : ℕ) (_ : ℕ) => s)
    { moves := [4], snaps := [(0, 3)], cursor := 1, stride := 1 } 9 0
    (3, { moves := [4], snaps := [(0, 3)], cursor := 0, stride := 1 }, [(0, 1)])
    rfl
  exact h

/-- C5: when the cursor is strictly behind the end, `push` drops every
record at index ≥ cursor and every snapshot with key > cursor, then
appends the new record (and snapshots the new ply when the stride
divides it); afterwards `total = old cursor + 1` and `cursor = total`. -/
theorem push_truncates {μ σ : Type} (t : MoveHistory μ σ) (b : σ) (mv : μ)
    (h : t.cursor < t.moves.length) :
    ((t.push b mv).1).moves = t.moves.take t.cursor ++ [mv]
    ∧ ((t.push b mv).1).snaps
        = t.snaps.filter (fun kv => decide (kv.1 ≤ t.cursor))
          ++ (if (t.cursor + 1) % t.stride = 0 then [(t.cursor + 1, b)] else [])
    ∧ ((t.push b mv).1).moves.length = t.cursor + 1
    ∧ ((t.push b mv).1).cursor = ((t.push b mv).1).moves.length := by
  unfold MoveHistory.push
  dsimp only
  rw [if_pos h]
  split
  next hdiv =>
    refine ⟨rfl, ?_, ?_, ?_⟩
    · show snapsInsert (t.snaps.filter (fun kv => decide (kv.1 ≤ t.cursor))) (t.cursor + 1) b = _
      unfold snapsInsert
      rw [List.filter_filter]
      congr 1
      apply List.filter_congr
      intro kv _
      by_cases hk : kv.1 ≤ t.cursor
      · have h2 : ¬ (kv.1 = t.cursor + 1) := by omega
        simp [hk, h2]
      · simp [hk]
    · simp
      omega
    · simp
      omega
  next hdiv =>
    refine ⟨rfl, ?_, ?_, ?_⟩
    · simp
    · simp
      omega
    · simp
      omega

/-- C5 witness: a concrete timeline with `cursor = 1 < total = 2`,
stride 2; the push truncates the abandoned branch and re-snapshots
ply 2. -/
theorem push_truncates_witness :
    (({ moves := [5, 6], snaps := [(0, 0), (2, 7)], cursor := 1, stride := 2 }
        : MoveHistory ℕ ℕ).cursor
      < ({ moves := [5, 6], snaps := [(0, 0), (2, 7)], cursor := 1, stride := 2 }
        : MoveHistory ℕ ℕ).moves.length)
    ∧ ((({ moves := [5, 6], snaps := [(0, 0), (2, 7)], cursor := 1, stride := 2 }
        : MoveHistory ℕ ℕ).push 9 8).1).moves = [5, 8]
    ∧ ((({ moves := [5, 6], snaps := [(0, 0), (2, 7)], cursor := 1, stride := 2 }
        : MoveHistory ℕ ℕ).push 9 8).1).snaps = [(0, 0), (2, 9)]
    ∧ ((({ moves := [5, 6], snaps := [(0, 0), (2, 7)], cursor := 1, stride := 2 }
        : MoveHistory ℕ ℕ).push 9 8).1).cursor = 2 := by
  have h := push_truncates
    ({ moves := [5, 6], snaps := [(0, 0), (2, 7)], cursor := 1, stride := 2 }
      : MoveHistory ℕ ℕ) 9 8 (by decide)
  refine ⟨by decide, ?_, ?_, ?_⟩
  · rw [h.1]
    decide
  · rw [h.2.1]
    decide
  · rw [h.2.2.2, h.2.2.1]

/-- C7: `goto` with a target outside `[0, total]` raises the range
error before touching anything (the returned-state semantics: the
caller's history and board values are exactly the ones passed in), and
`goto` at the current cursor (cursor in range, as every reachable
history has it) returns the board and history unchanged and fires no
notification. -/
theorem goto_range_error_and_noop {μ σ : Type} (am : σ → μ → σ)
    (t : MoveHistory μ σ) (b : σ) (target : ℤ) :
    ((target < 0 ∨ (t.moves.length : ℤ) < target) →
      MoveHistory.goto am t b target = .error .range)
    ∧ (t.cursor ≤ t.moves.length → target = (t.cursor : ℤ) →
      MoveHistory.goto am t b target = .ok (b, t, [])) := by
  constructor
  · intro h
    unfold MoveHistory.goto
    rw [if_pos (by omega)]
  · intro hc htgt
    subst htgt
    unfold MoveHistory.goto
    rw [if_neg (by omega)]
    simp

/-- C7 witness: concrete out-of-range targets (−1 and 3 on a 2-move
history) raise the range error, and `goto cursor` is a silent no-op. -/
theorem goto_range_error_and_noop_witness :
    MoveHistory.goto (fun (s : ℕ) (_ : ℕ) => s)
        { moves := [4, 5], snaps := [(0, 3)], cursor := 1, stride := 8 } 9 (-1)
      = .error .range
    ∧ MoveHistory.goto (fun (s : ℕ) (_ : ℕ) => s)
        { moves := [4, 5], snaps := [(0, 3)], cursor := 1, stride := 8 } 9 3
      = .error .range
    ∧ MoveHistory.goto (fun (s : ℕ) (_ : ℕ) => s)
        { moves := [4, 5], snaps := [(0, 3)], cursor := 1, stride := 8 } 9 1
      = .ok (9, { moves := [4, 5], snaps := [(0, 3)], cursor := 1, stride := 8 }, []) := by
  refine ⟨?_, ?_, ?_⟩
  · exact (goto_range_error_and_noop _ _ 9 (-1)).1 (by decide)
  · exact (goto_range_error_and_noop _ _ 9 3).1 (by decide)
  · exact (goto_range_error_and_noop _ _ 9 1).2 (by decide) (by decide)

/-! ### C3: timeline round-trip -/

/-- Replaying a list of moves onto a state with the rules authority's
`apply_move`. -/
def replay {μ σ : Type} (am : σ → μ → σ) (s : σ) (ms : List μ) : σ :=
  ms.foldl am s

/-- The C3 scenario: `reset` on a freshly constructed history, then one
`push` per move, each push made immediately after its move was applied
to the live board (the commit discipline of the spec).  Returns the
live board and the history after the N pushes. -/
def pushSeq {μ σ : Type} (am : σ → μ → σ) (stride : ℤ) (b0 : σ) (mvs : List μ) :
    σ × MoveHistory μ σ :=
  mvs.foldl (fun p mv =>
      let b1 := am p.1 mv
      (b1, (p.2.push b1 mv).1))
    (b0, ((MoveHistory.init μ σ stride).reset b0).1)

theorem snapsLookup_mem {σ : Type} {l : List (ℕ × σ)} {k : ℕ} {v : σ}
    (h : snapsLookup l k = some v) : (k, v) ∈ l := by
  induction l with
  | nil => simp [snapsLookup] at h
  | cons kv rest ih =>
    rcases kv with ⟨k', v'⟩
    unfold snapsLookup at h
    by_cases hk : k' = k
    · rw [if_pos hk] at h
      cases h
      subst hk
      exact List.mem_cons_self _ _
    · rw [if_neg hk] at h
      exact List.mem_cons_of_mem _ (ih h)

theorem snapsLookup_exists {σ : Type} {l : List (ℕ × σ)} {k : ℕ} {v : σ}
    (h : (k, v) ∈ l) : ∃ w, snapsLookup l k = some w ∧ (k, w) ∈ l := by
  induction l with
  | nil => simp at h
  | cons kv rest ih =>
    rcases kv with ⟨k', v'⟩
    by_cases hk : k' = k
    · subst hk
      exact ⟨v', by simp [snapsLookup], List.mem_cons_self _ _⟩
    · rcases List.mem_cons.mp h with heq | hmem
      · cases heq
        exact absurd rfl hk
      · rcases ih hmem with ⟨w, hw, hwm⟩
        exact ⟨w, by simp [snapsLookup, hk, hw], List.mem_cons_of_mem _ hwm⟩

theorem foldr_max_le {l : List ℕ} {c : ℕ} (h : ∀ x ∈ l, x ≤ c) :
    l.foldr max 0 ≤ c := by
  induction l with
  | nil => exact Nat.zero_le c
  | cons x xs ih =>
    simp only [List.foldr_cons]
    exact max_le (h x (List.mem_cons_self _ _))
      (ih (fun y hy => h y (List.mem_cons_of_mem _ hy)))

theorem foldr_max_mem (l : List ℕ) : l.foldr max 0 = 0 ∨ l.foldr max 0 ∈ l := by
  induction l with
  | nil => exact Or.inl rfl
  | cons x xs ih =>
    simp only [List.foldr_cons]
    rcases le_total (xs.foldr max 0) x with hle | hle
    · rw [max_eq_left hle]
      exact Or.inr (List.mem_cons_self _ _)
    · rw [max_eq_right hle]
      rcases ih with h0 | hm
      · exact Or.inl h0
      · exact Or.inr (List.mem_cons_of_mem _ hm)

theorem le_foldr_max {l : List ℕ} {x : ℕ} (h : x ∈ l) : x ≤ l.foldr max 0 := by
  induction l with
  | nil => simp at h
  | cons y ys ih =>
    simp only [List.foldr_cons]
    rcases List.mem_cons.mp h with rfl | hm
    · exact le_max_left _ _
    · exact le_trans (ih hm) (le_max_right _ _)

/-- `push` when the cursor is at the end (no truncation). -/
theorem push_no_trunc {μ σ : Type} (t : MoveHistory μ σ) (b : σ) (mv : μ)
    (h : t.cursor = t.moves.length) :
    (t.push b mv).1 =
      { moves := t.moves ++ [mv],
        snaps := if (t.cursor + 1) % t.stride = 0 then
            snapsInsert t.snaps (t.cursor + 1) b
          else t.snaps,
        cursor := t.cursor + 1,
        stride := t.stride } := by
  unfold MoveHistory.push
  dsimp only
  have hnlt : ¬ t.cursor < t.moves.length := by omega
  rw [if_neg hnlt]
  split <;> rfl

/-- The invariant carried through the C3 push sequence. -/
theorem pushSeq_invariant {μ σ : Type} (am : σ → μ → σ) (b0 : σ) :
    ∀ (rest done : List μ) (b : σ) (t : MoveHistory μ σ),
    t.moves = done → t.cursor = done.length → b = replay am b0 done →
    1 ≤ t.stride → (0, b0) ∈ t.snaps →
    (∀ js ∈ t.snaps, js.1 ≤ done.length ∧ js.2 = replay am b0 (done.take js.1)) →
    (rest.foldl (fun p mv =>
        let b1 := am p.1 mv
        (b1, (p.2.push b1 mv).1)) (b, t)).2.moves = done ++ rest
    ∧ (rest.foldl (fun p mv =>
        let b1 := am p.1 mv
        (b1, (p.2.push b1 mv).1)) (b, t)).2.cursor = (done ++ rest).length
    ∧ (rest.foldl (fun p mv =>
        let b1 := am p.1 mv
        (b1, (p.2.push b1 mv).1)) (b, t)).1 = replay am b0 (done ++ rest)
    ∧ 1 ≤ (rest.foldl (fun p mv =>
        let b1 := am p.1 mv
        (b1, (p.2.push b1 mv).1)) (b, t)).2.stride
    ∧ (0, b0) ∈ (rest.foldl (fun p mv =>
        let b1 := am p.1 mv
        (b1, (p.2.push b1 mv).1)) (b, t)).2.snaps
    ∧ (∀ js ∈ (rest.foldl (fun p mv =>
        let b1 := am p.1 mv
        (b1, (p.2.push b1 mv).1)) (b, t)).2.snaps,
        js.1 ≤ (done ++ rest).length
        ∧ js.2 = replay am b0 ((done ++ rest).take js.1)) := by
  intro rest
  induction rest with
  | nil =>
    intro done b t hm hc hb hs h0 hsnap
    simp only [List.foldl_nil, List.append_nil]
    exact ⟨hm, hc, hb, hs, h0, hsnap⟩
  | cons mv rest ih =>
    intro done b t hm hc hb hs h0 hsnap
    simp only [List.foldl_cons]
    have hb1 : am b mv = replay am b0 (done ++ [mv]) := by
      rw [hb, replay, replay, List.foldl_append]
      rfl
    have hpush := push_no_trunc t (am b mv) mv (by rw [hc, hm])
    have happ : done ++ mv :: rest = (done ++ [mv]) ++ rest := by simp
    rw [happ]
    apply ih (done ++ [mv]) (am b mv) ((t.push (am b mv) mv).1)
    · rw [hpush, hm]
    · rw [hpush]
      simp [hc]
    · exact hb1
    · rw [hpush]
      exact hs
    · rw [hpush]
      dsimp only
      split
      · unfold snapsInsert
        apply List.mem_append_left
        apply List.mem_filter.mpr
        refine ⟨h0, ?_⟩
        simp
      · exact h0
    · rw [hpush]
      dsimp only
      intro js hjs
      have hlen : (done ++ [mv]).length = done.length + 1 := by simp
      split at hjs
      · unfold snapsInsert at hjs
        rcases List.mem_append.mp hjs with hold | hnew
        · have hold' := List.mem_filter.mp hold
          rcases hsnap js hold'.1 with ⟨hj1, hj2⟩
          refine ⟨by omega, ?_⟩
          rw [hj2, List.take_append_of_le_length hj1]
        · rcases List.mem_singleton.mp hnew with rfl
          refine ⟨by simp [hc], ?_⟩
          dsimp only
          rw [hc, ← hlen, List.take_length]
          exact hb1
      · rcases hsnap js hjs with ⟨hj1, hj2⟩
        refine ⟨by omega, ?_⟩
        rw [hj2, List.take_append_of_le_length hj1]

/-- `goto` at the current cursor is the silent early return. -/
theorem goto_noop {μ σ : Type} (am : σ → μ → σ) (t : MoveHistory μ σ) (b : σ)
    (h : t.cursor ≤ t.moves.length) :
    MoveHistory.goto am t b (t.cursor : ℤ) = .ok (b, t, []) := by
  unfold MoveHistory.goto
  have h1 : ¬¬(0 ≤ (t.cursor : ℤ) ∧ (t.cursor : ℤ) ≤ (t.moves.length : ℤ)) := by omega
  rw [if_neg h1]
  simp

/-- The success path of `goto`: in range, not at the cursor, and the
floor-snapshot lookup succeeds. -/
theorem goto_replay_eq {μ σ : Type} (am : σ → μ → σ) (t : MoveHistory μ σ) (b : σ)
    (k : ℕ) (w : σ) (hrange : k ≤ t.moves.length) (hne : ¬ k = t.cursor)
    (hlk : snapsLookup t.snaps (t.floorSnap k) = some w) :
    MoveHistory.goto am t b (k : ℤ)
      = .ok (((t.moves.take k).drop (t.floorSnap k)).foldl am w,
             { t with cursor := k },
             [(k, t.moves.length)]) := by
  unfold MoveHistory.goto
  have h1 : ¬¬(0 ≤ (k : ℤ) ∧ (k : ℤ) ≤ (t.moves.length : ℤ)) := by omega
  rw [if_neg h1]
  dsimp only
  simp only [Int.toNat_natCast]
  rw [if_neg hne, hlk]
  rfl

/-- What the C3 push sequence produces: the recorded moves are the
pushed moves, the cursor sits at the end, the live board is the full
replay, and every snapshot holds the replay of its key-prefix (with the
ply-0 snapshot always present). -/
theorem pushSeq_spec {μ σ : Type} (am : σ → μ → σ) (stride : ℤ) (b0 : σ)
    (mvs : List μ) :
    (pushSeq am stride b0 mvs).2.moves = mvs
    ∧ (pushSeq am stride b0 mvs).2.cursor = mvs.length
    ∧ (pushSeq am stride b0 mvs).1 = replay am b0 mvs
    ∧ 1 ≤ (pushSeq am stride b0 mvs).2.stride
    ∧ (0, b0) ∈ (pushSeq am stride b0 mvs).2.snaps
    ∧ (∀ js ∈ (pushSeq am stride b0 mvs).2.snaps,
        js.1 ≤ mvs.length ∧ js.2 = replay am b0 (mvs.take js.1)) := by
  have h := pushSeq_invariant am b0 mvs [] b0
      (((MoveHistory.init μ σ stride).reset b0).1) rfl rfl rfl
      (by simp [MoveHistory.reset, MoveHistory.init])
      (by simp [MoveHistory.reset])
      (by
        intro js hjs
        simp only [MoveHistory.reset] at hjs
        rcases List.mem_singleton.mp hjs with rfl
        exact ⟨Nat.le_refl 0, rfl⟩)
  simpa [pushSeq] using h

/-- C3: under the model's standing assumptions (states are values, so
`get_state`/`set_state` round-trip exactly and `apply_move` is a
function; each push is made immediately after its move is applied to
the live board), `goto k` after N pushes returns exactly the replay of
the first k recorded moves from the ply-0 (reset) state. -/
theorem timeline_round_trip {μ σ : Type} (am : σ → μ → σ) (stride : ℤ) (b0 : σ)
    (mvs : List μ) (k : ℕ) (hk : k ≤ mvs.length) :
    ∃ t' evs,
      MoveHistory.goto am (pushSeq am stride b0 mvs).2 (pushSeq am stride b0 mvs).1 (k : ℤ)
        = .ok (replay am b0 (mvs.take k), t', evs) := by
  obtain ⟨hm, hc, hb, hs, h0, hsnap⟩ := pushSeq_spec am stride b0 mvs
  by_cases hkc : k = (pushSeq am stride b0 mvs).2.cursor
  · refine ⟨(pushSeq am stride b0 mvs).2, [], ?_⟩
    rw [hkc, goto_noop am _ _ (by rw [hc, hm])]
    have htake : mvs.take ((pushSeq am stride b0 mvs).2.cursor) = mvs := by
      rw [hc]
      exact List.take_length mvs
    rw [htake, ← hb]
  · set t := (pushSeq am stride b0 mvs).2 with ht
    have hkeys : ∀ x ∈ t.keys.filter (fun i => decide (i ≤ k)), x ≤ k := by
      intro x hx
      simpa using (List.mem_filter.mp hx).2
    have hjk : t.floorSnap k ≤ k := foldr_max_le hkeys
    have h0f : (0 : ℕ) ∈ t.keys.filter (fun i => decide (i ≤ k)) := by
      apply List.mem_filter.mpr
      refine ⟨?_, by simp⟩
      exact List.mem_map.mpr ⟨(0, b0), h0, rfl⟩
    have hjmem : t.floorSnap k ∈ t.keys := by
      rcases foldr_max_mem (t.keys.filter (fun i => decide (i ≤ k))) with hz | hmem
      · rw [MoveHistory.floorSnap, hz]
        exact (List.mem_filter.mp h0f).1
      · exact (List.mem_filter.mp hmem).1
    obtain ⟨⟨j', w⟩, hjw, hj'⟩ := List.mem_map.mp hjmem
    dsimp at hj'
    subst hj'
    obtain ⟨w', hlk, hw'mem⟩ := snapsLookup_exists hjw
    obtain ⟨hw'le, hw'val⟩ := hsnap (t.floorSnap k, w') hw'mem
    dsimp only at hw'le hw'val
    refine ⟨{ t with cursor := k }, [(k, t.moves.length)], ?_⟩
    rw [goto_replay_eq am t _ k w' (by rw [hm]; exact hk) hkc hlk]
    have hboard : ((t.moves.take k).drop (t.floorSnap k)).foldl am w'
        = replay am b0 (mvs.take k) := by
      rw [hm, hw'val]
      have hsplit : mvs.take k
          = (mvs.take k).take (t.floorSnap k) ++ (mvs.take k).drop (t.floorSnap k) :=
        (List.take_append_drop (t.floorSnap k) (mvs.take k)).symm
      have htt : (mvs.take k).take (t.floorSnap k) = mvs.take (t.floorSnap k) := by
        rw [List.take_take, min_eq_left hjk]
      conv_rhs => rw [replay, hsplit, List.foldl_append]
      rw [← htt]
      rfl
    rw [hboard]

/-- C3 witness: three pushes of additive moves with stride 2, then
`goto 2` returns the replay of the first two moves. -/
theorem timeline_round_trip_witness :
    (2 : ℕ) ≤ ([1, 2, 3] : List ℕ).length
    ∧ ∃ t' evs,
      MoveHistory.goto (fun (s m : ℕ) => s + m)
          (pushSeq (fun (s m : ℕ) => s + m) 2 0 [1, 2, 3]).2
          (pushSeq (fun (s m : ℕ) => s + m) 2 0 [1, 2, 3]).1 ((2 : ℕ) : ℤ)
        = .ok (replay (fun (s m : ℕ) => s + m) 0 ([1, 2, 3].take 2), t', evs) :=
  ⟨by decide, timeline_round_trip (fun (s m : ℕ) => s + m) 2 0 [1, 2, 3] 2 (by decide)⟩

/-! ### C6: the snapshot-key invariant over all reachable states -/

/-- Membership in the keys of a key-filtered snapshot dict. -/
theorem keys_filter_mem {σ : Type} (l : List (ℕ × σ)) (c k : ℕ) :
    k ∈ (l.filter (fun kv => decide (kv.1 ≤ c))).map Prod.fst
      ↔ (k ∈ l.map Prod.fst ∧ k ≤ c) := by
  simp only [List.mem_map, List.mem_filter]
  constructor
  · rintro ⟨⟨k1, v⟩, ⟨h1, h2⟩, rfl⟩
    exact ⟨⟨(k1, v), h1, rfl⟩, by simpa using h2⟩
  · rintro ⟨⟨⟨k1, v⟩, h1, rfl⟩, hle⟩
    exact ⟨(k1, v), ⟨h1, by simpa using hle⟩, rfl⟩

/-- Membership in the keys after a dict assignment. -/
theorem keys_insert_mem {σ : Type} (l : List (ℕ × σ)) (c k : ℕ) (v : σ) :
    k ∈ (snapsInsert l c v).map Prod.fst
      ↔ ((k ∈ l.map Prod.fst ∧ k ≠ c) ∨ k = c) := by
  unfold snapsInsert
  simp only [List.map_append, List.mem_append, List.mem_map, List.mem_filter]
  constructor
  · rintro (⟨⟨k1, v1⟩, ⟨h1, h2⟩, rfl⟩ | h)
    · exact Or.inl ⟨⟨(k1, v1), h1, rfl⟩, by simpa using h2⟩
    · simp at h
      exact Or.inr h.symm
  · rintro (⟨⟨⟨k1, v1⟩, h1, rfl⟩, hne⟩ | rfl)
    · exact Or.inl ⟨(k1, v1), ⟨h1, by simpa using hne⟩, rfl⟩
    · exact Or.inr (by simp)

/-- Timeline states reachable by `reset` followed by any sequence of
`push` and `goto` calls (an initial `reset` is mandatory in the GUI flow;
further resets may happen at any point; `push` may be handed any live
board, which the key invariant does not depend on). -/
inductive Reachable {μ σ : Type} (am : σ → μ → σ) : MoveHistory μ σ → σ → Prop where
  | start (stride : ℤ) (b : σ) :
      Reachable am ((MoveHistory.init μ σ stride).reset b).1 b
  | reset {t : MoveHistory μ σ} {b : σ} (b' : σ) :
      Reachable am t b → Reachable am (t.reset b').1 b'
  | push {t : MoveHistory μ σ} {b : σ} (b' : σ) (mv : μ) :
      Reachable am t b → Reachable am (t.push b' mv).1 b'
  | goto {t : MoveHistory μ σ} {b : σ} (k : ℤ) {b' : σ} {t' : MoveHistory μ σ}
      {evs : List (ℕ × ℕ)} :
      Reachable am t b → MoveHistory.goto am t b k = .ok (b', t', evs) →
      Reachable am t' b'

/-- A successful `goto` only moves the cursor (to an in-range index). -/
theorem goto_ok_shape {μ σ : Type} {am : σ → μ → σ} {t : MoveHistory μ σ}
    {b b' : σ} {t' : MoveHistory μ σ} {evs : List (ℕ × ℕ)} {tg : ℤ}
    (h : MoveHistory.goto am t b tg = .ok (b', t', evs)) :
    t'.moves = t.moves ∧ t'.snaps = t.snaps ∧ t'.stride = t.stride
    ∧ t'.cursor ≤ t.moves.length := by
  unfold MoveHistory.goto at h
  split at h
  · exact absurd h (by simp)
  · next hrange =>
    have hr : 0 ≤ tg ∧ tg ≤ (t.moves.length : ℤ) := not_not.mp hrange
    dsimp only at h
    split at h
    · next heq =>
      cases h
      exact ⟨rfl, rfl, rfl, by omega⟩
    · next hne =>
      split at h
      · exact absurd h (by simp)
      · cases h
        refine ⟨rfl, rfl, rfl, ?_⟩
        show tg.toNat ≤ t.moves.length
        omega

/-- The structural invariant of every reachable timeline: the stride is
at least 1, the cursor is in range, and the snapshot keys are exactly
the multiples of the stride that are at most `total`. -/
theorem reachable_inv {μ σ : Type} {am : σ → μ → σ} {t : MoveHistory μ σ} {b : σ}
    (hr : Reachable am t b) :
    1 ≤ t.stride ∧ t.cursor ≤ t.moves.length
    ∧ ∀ k : ℕ, k ∈ t.keys ↔ (k % t.stride = 0 ∧ k ≤ t.moves.length) := by
  induction hr with
  | start stride b =>
    refine ⟨by show 1 ≤ (max 1 stride).toNat; omega, Nat.le_refl 0, ?_⟩
    intro k
    dsimp only [MoveHistory.reset, MoveHistory.keys, MoveHistory.init]
    simp only [List.map_cons, List.map_nil, List.length_nil, List.mem_singleton]
    constructor
    · rintro rfl
      exact ⟨Nat.zero_mod _, Nat.le_refl 0⟩
    · rintro ⟨h1, h2⟩
      omega
  | reset b' hr ih =>
    refine ⟨ih.1, Nat.le_refl 0, ?_⟩
    intro k
    dsimp only [MoveHistory.reset, MoveHistory.keys]
    simp only [List.map_cons, List.map_nil, List.length_nil, List.mem_singleton]
    constructor
    · rintro rfl
      exact ⟨Nat.zero_mod _, Nat.le_refl 0⟩
    · rintro ⟨h1, h2⟩
      omega
  | push b' mv hr ih =>
    obtain ⟨hS, hcle, hkeys⟩ := ih
    rename_i t0 b0
    by_cases htr : t0.cursor < t0.moves.length
    · have hfields : (t0.push b' mv).1.stride = t0.stride
          ∧ (t0.push b' mv).1.cursor = t0.cursor + 1
          ∧ (t0.push b' mv).1.moves.length = t0.cursor + 1
          ∧ (t0.push b' mv).1.snaps
              = (if (t0.cursor + 1) % t0.stride = 0 then
                  snapsInsert (t0.snaps.filter (fun kv => decide (kv.1 ≤ t0.cursor)))
                    (t0.cursor + 1) b'
                else t0.snaps.filter (fun kv => decide (kv.1 ≤ t0.cursor))) := by
        unfold MoveHistory.push
        dsimp only
        rw [if_pos htr]
        split <;>
          exact ⟨rfl, rfl, by simp; omega, rfl⟩
      obtain ⟨hf1, hf2, hf3, hf4⟩ := hfields
      refine ⟨by rw [hf1]; exact hS, by rw [hf2, hf3], ?_⟩
      intro k
      rw [MoveHistory.keys, hf4, hf1, hf3]
      by_cases hdiv : (t0.cursor + 1) % t0.stride = 0
      · rw [if_pos hdiv, keys_insert_mem, keys_filter_mem]
        rw [← MoveHistory.keys, hkeys k]
        constructor
        · rintro (⟨⟨h1, h2⟩, h3⟩ | rfl)
          · exact ⟨h1.1, by omega⟩
          · exact ⟨hdiv, Nat.le_refl _⟩
        · rintro ⟨h1, h2⟩
          by_cases hkc : k = t0.cursor + 1
          · exact Or.inr hkc
          · exact Or.inl ⟨⟨⟨h1, by omega⟩, by omega⟩, hkc⟩
      · rw [if_neg hdiv, keys_filter_mem]
        rw [← MoveHistory.keys, hkeys k]
        constructor
        · rintro ⟨⟨h1, h2⟩, h3⟩
          exact ⟨h1, by omega⟩
        · rintro ⟨h1, h2⟩
          have hkc : ¬ k = t0.cursor + 1 := by
            rintro rfl
            exact hdiv h1
          exact ⟨⟨h1, by omega⟩, by omega⟩
    · have hceq : t0.cursor = t0.moves.length := by omega
      have hfields : (t0.push b' mv).1.stride = t0.stride
          ∧ (t0.push b' mv).1.cursor = t0.cursor + 1
          ∧ (t0.push b' mv).1.moves.length = t0.cursor + 1
          ∧ (t0.push b' mv).1.snaps
              = (if (t0.cursor + 1) % t0.stride = 0 then
                  snapsInsert t0.snaps (t0.cursor + 1) b'
                else t0.snaps) := by
        rw [push_no_trunc t0 b' mv hceq]
        exact ⟨rfl, rfl, by simp [hceq], rfl⟩
      obtain ⟨hf1, hf2, hf3, hf4⟩ := hfields
      refine ⟨by rw [hf1]; exact hS, by rw [hf2, hf3], ?_⟩
      intro k
      rw [MoveHistory.keys, hf4, hf1, hf3]
      by_cases hdiv : (t0.cursor + 1) % t0.stride = 0
      · rw [if_pos hdiv, keys_insert_mem]
        rw [← MoveHistory.keys, hkeys k]
        constructor
        · rintro (⟨h1, h2⟩ | rfl)
          · exact ⟨h1.1, by omega⟩
          · exact ⟨hdiv, Nat.le_refl _⟩
        · rintro ⟨h1, h2⟩
          by_cases hkc : k = t0.cursor + 1
          · exact Or.inr hkc
          · exact Or.inl ⟨⟨h1, by omega⟩, hkc⟩
      · rw [if_neg hdiv]
        rw [← MoveHistory.keys, hkeys k]
        constructor
        · rintro ⟨h1, h2⟩
          exact ⟨h1, by omega⟩
        · rintro ⟨h1, h2⟩
          have hkc : ¬ k = t0.cursor + 1 := by
            rintro rfl
            exact hdiv h1
          exact ⟨h1, by omega⟩
  | goto k hr hok ih =>
    obtain ⟨hS, hcle, hkeys⟩ := ih
    obtain ⟨hm, hs, hst, hc⟩ := goto_ok_shape hok
    refine ⟨by rw [hst]; exact hS, by rw [← hm] at hc; exact hc, ?_⟩
    intro j
    rw [MoveHistory.keys, hs, hst, hm, ← MoveHistory.keys]
    exact hkeys j

/-- C6: in every reachable timeline state the snapshot keys are exactly
the multiples of the stride in `[0, total]` (so ply 0 is always
snapshotted), and every in-range `goto` target has a floor snapshot key
at distance at most the stride, bounding the replayed slice by the
stride. -/
theorem snapshot_keys_invariant {μ σ : Type} (am : σ → μ → σ)
    (t : MoveHistory μ σ) (b : σ) (hr : Reachable am t b) :
    (∀ k : ℕ, k ∈ t.keys ↔ (k % t.stride = 0 ∧ k ≤ t.moves.length))
    ∧ ∀ k : ℕ, k ≤ t.moves.length →
        t.floorSnap k ∈ t.keys ∧ t.floorSnap k ≤ k
        ∧ k - t.floorSnap k ≤ t.stride
        ∧ ((t.moves.take k).drop (t.floorSnap k)).length ≤ t.stride := by
  obtain ⟨hS, hcle, hkeys⟩ := reachable_inv hr
  refine ⟨hkeys, ?_⟩
  intro k hk
  have hSpos : 0 < t.stride := hS
  have hm0 : (k - k % t.stride) % t.stride = 0 := by
    have hdm : k - k % t.stride = t.stride * (k / t.stride) := by
      have := Nat.div_add_mod k t.stride
      omega
    rw [hdm]
    exact Nat.mul_mod_right _ _
  have hmle : k - k % t.stride ≤ k := Nat.sub_le _ _
  have hmmem : (k - k % t.stride) ∈ t.keys := (hkeys _).mpr ⟨hm0, by omega⟩
  have hmfil : (k - k % t.stride) ∈ t.keys.filter (fun i => decide (i ≤ k)) :=
    List.mem_filter.mpr ⟨hmmem, by simp⟩
  have hflo_ge : k - k % t.stride ≤ t.floorSnap k := le_foldr_max hmfil
  have hflo_le : t.floorSnap k ≤ k := by
    apply foldr_max_le
    intro x hx
    simpa using (List.mem_filter.mp hx).2
  have hmod_lt : k % t.stride < t.stride := Nat.mod_lt _ hSpos
  have hfloor_mem : t.floorSnap k ∈ t.keys := by
    rcases foldr_max_mem (t.keys.filter (fun i => decide (i ≤ k))) with hz | hmem
    · rw [MoveHistory.floorSnap, hz]
      exact (hkeys 0).mpr ⟨Nat.zero_mod _, Nat.zero_le _⟩
    · exact (List.mem_filter.mp hmem).1
  refine ⟨hfloor_mem, hflo_le, by omega, ?_⟩
  rw [List.length_drop, List.length_take, min_eq_left hk]
  omega

/-- C6 witness: the concrete reachable state reset-then-one-push with
stride 2 (snapshot keys `{0}`, total 1). -/
theorem snapshot_keys_invariant_witness :
    (∀ k : ℕ,
        k ∈ ((((MoveHistory.init ℕ ℕ 2).reset 0).1).push 5 9).1.keys
          ↔ (k % ((((MoveHistory.init ℕ ℕ 2).reset 0).1).push 5 9).1.stride = 0
              ∧ k ≤ ((((MoveHistory.init ℕ ℕ 2).reset 0).1).push 5 9).1.moves.length))
    ∧ ∀ k : ℕ, k ≤ ((((MoveHistory.init ℕ ℕ 2).reset 0).1).push 5 9).1.moves.length →
        ((((MoveHistory.init ℕ ℕ 2).reset 0).1).push 5 9).1.floorSnap k
            ∈ ((((MoveHistory.init ℕ ℕ 2).reset 0).1).push 5 9).1.keys
        ∧ ((((MoveHistory.init ℕ ℕ 2).reset 0).1).push 5 9).1.floorSnap k ≤ k
        ∧ k - ((((MoveHistory.init ℕ ℕ 2).reset 0).1).push 5 9).1.floorSnap k
            ≤ ((((MoveHistory.init ℕ ℕ 2).reset 0).1).push 5 9).1.stride
        ∧ (((((MoveHistory.init ℕ ℕ 2).reset 0).1).push 5 9).1.moves.take k
            |>.drop (((((MoveHistory.init ℕ ℕ 2).reset 0).1).push 5 9).1.floorSnap k)).length
            ≤ ((((MoveHistory.init ℕ ℕ 2).reset 0).1).push 5 9).1.stride :=
  snapshot_keys_invariant (fun (s m : ℕ) => s + m)
    ((((MoveHistory.init ℕ ℕ 2).reset 0).1).push 5 9).1 5
    (Reachable.push 5 9 (Reachable.start 2 0))

/-! ## SimpleAI search (simple_ai.py, lines 28-58)

The search reads the board only through python-chess operations
(`legal_moves`, `is_capture`, `push`, `pop`, `is_game_over`) and through
`self.evaluate`; a `Game` supplies those operations on an abstract
position type `β`.  `board.push`/`board.pop` mutate one shared board
object; a `BoardM` models that object as the current position plus the
undo stack, and the embedded functions thread it explicitly. -/

/-- The rules-authority operations consumed by `SimpleAI`.  `view`
returns the query answers `SimpleAI.evaluate` reads (so the embedded
evaluation is exactly the `evaluate` above). -/
structure Game (β μ : Type) where
  legalMoves : β → List μ
  isCapture : β → μ → Bool
  apply : β → μ → β
  isGameOver : β → Bool
  view : β → EvalPos

/-- A python-chess board object: the current position plus the undo
stack maintained by `push`/`pop`.  The exported state of the object is
`cur`. -/
structure BoardM (β : Type) where
  cur : β
  stack : List β
deriving DecidableEq, Repr

/-- `board.push(mv)`: move to the new position, remembering the old one. -/
def pushM {β μ : Type} (g : Game β μ) (bm : BoardM β) (mv : μ) : BoardM β :=
  { cur := g.apply bm.cur mv, stack := bm.cur :: bm.stack }

/-- `board.pop()`: restore the most recently pushed-over position.
(python-chess raises on an empty stack; the search only pops right
after a push, so the empty case, modelled as a no-op, is unreachable.) -/
def popM {β : Type} (bm : BoardM β) : BoardM β :=
  match bm.stack with
  | [] => bm
  | s :: rest => { cur := s, stack := rest }

/-- `SimpleAI.order_moves` (simple_ai.py, lines 28-29): Python's stable
`sorted` with key capture→1 / other→0 and `reverse=True` keeps
equal-key moves in their generation order, so the result is the
captures in order followed by the non-captures in order. -/
def order_moves {β μ : Type} (g : Game β μ) (b : β) (moves : List μ) : List μ :=
  moves.filter (fun m => g.isCapture b m) ++ moves.filter (fun m => !(g.isCapture b m))

/-- The move loop of `SimpleAI.search` (lines 35-44), threading the
shared board object: push, recurse with negated swapped bounds, pop,
update `best` and `alpha`, break on `alpha ≥ beta`. -/
def searchLoopM {β μ : Type} (g : Game β μ)
    (f : BoardM β → Score → Score → Score × BoardM β) (beta : Score) :
    List μ → BoardM β → Score → Score → Score × BoardM β
  | [], bm, best, _ => (best, bm)
  | mv :: ms, bm, best, alpha =>
    let bm1 := pushM g bm mv
    let r := f bm1 (sneg beta) (sneg alpha)
    let score := sneg r.1
    let bm3 := popM r.2
    let best1 := if score > best then score else best
    let alpha1 := if best1 > alpha then best1 else alpha
    if alpha1 ≥ beta then (best1, bm3)
    else searchLoopM g f beta ms bm3 best1 alpha1

/-- `SimpleAI.search` (lines 31-45) on the shared board object.  The
depth-0 case returns `evaluate` exactly as the source's
`depth == 0 or board.is_game_over()` test does. -/
def searchM {β μ : Type} (g : Game β μ) :
    ℕ → BoardM β → Score → Score → Score × BoardM β
  | 0, bm, _, _ => (sfin (evaluate (g.view bm.cur)), bm)
  | d + 1, bm, alpha, beta =>
    if g.isGameOver bm.cur then (sfin (evaluate (g.view bm.cur)), bm)
    else searchLoopM g (searchM g d) beta
      (order_moves g bm.cur (g.legalMoves bm.cur)) bm ⊥ alpha

/-- The root loop of `SimpleAI.best_move` (lines 50-57): same ordering
and recursion, tracks the best move with its score, no cutoff break
(the root never raises `beta`). -/
def bestLoopM {β μ : Type} (g : Game β μ)
    (f : BoardM β → Score → Score → Score × BoardM β) (beta : Score) :
    List μ → BoardM β → Option μ × Score → Score → (Option μ × Score) × BoardM β
  | [], bm, acc, _ => (acc, bm)
  | mv :: ms, bm, acc, alpha =>
    let bm1 := pushM g bm mv
    let r := f bm1 (sneg beta) (sneg alpha)
    let score := sneg r.1
    let bm3 := popM r.2
    let acc1 := if score > acc.2 then (some mv, score) else acc
    let alpha1 := if acc1.2 > alpha then acc1.2 else alpha
    bestLoopM g f beta ms bm3 acc1 alpha1

/-- `SimpleAI.best_move` (lines 47-58) on the shared board object,
returning `(best_mv, best_score)` together with the final board.
`best_mv, best_score = None, -inf`, `alpha, beta = -inf, +inf`. -/
def best_moveM {β μ : Type} (g : Game β μ) (bm : BoardM β) (depth : ℕ) :
    (Option μ × Score) × BoardM β :=
  bestLoopM g (searchM g (depth - 1)) ⊤
    (order_moves g bm.cur (g.legalMoves bm.cur)) bm (none, ⊥) ⊥

/-- The functional view of the `search` move loop (the board object is
restored after every iteration, so the loop is a function of the
current position). -/
def searchLoop {β μ : Type} (g : Game β μ) (f : β → Score → Score → Score)
    (b : β) (beta : Score) : List μ → Score → Score → Score
  | [], best, _ => best
  | mv :: ms, best, alpha =>
    let score := sneg (f (g.apply b mv) (sneg beta) (sneg alpha))
    let best1 := if score > best then score else best
    let alpha1 := if best1 > alpha then best1 else alpha
    if alpha1 ≥ beta then best1
    else searchLoop g f b beta ms best1 alpha1

/-- The functional view of `SimpleAI.search`. -/
def search {β μ : Type} (g : Game β μ) : ℕ → β → Score → Score → Score
  | 0, b, _, _ => sfin (evaluate (g.view b))
  | d + 1, b, alpha, beta =>
    if g.isGameOver b then sfin (evaluate (g.view b))
    else searchLoop g (search g d) b beta (order_moves g b (g.legalMoves b)) ⊥ alpha

/-- The functional view of the `best_move` root loop. -/
def bestLoop {β μ : Type} (g : Game β μ) (f : β → Score → Score → Score)
    (b : β) (beta : Score) : List μ → Option μ × Score → Score → Option μ × Score
  | [], acc, _ => acc
  | mv :: ms, acc, alpha =>
    let score := sneg (f (g.apply b mv) (sneg beta) (sneg alpha))
    let acc1 := if score > acc.2 then (some mv, score) else acc
    let alpha1 := if acc1.2 > alpha then acc1.2 else alpha
    bestLoop g f b beta ms acc1 alpha1

/-- The functional view of `SimpleAI.best_move`. -/
def best_move_scored {β μ : Type} (g : Game β μ) (b : β) (depth : ℕ) :
    Option μ × Score :=
  bestLoop g (search g (depth - 1)) b ⊤ (order_moves g b (g.legalMoves b)) (none, ⊥) ⊥

theorem popM_pushM {β μ : Type} (g : Game β μ) (bm : BoardM β) (mv : μ) :
    popM (pushM g bm mv) = bm := rfl

/-- The `search` move loop leaves the board object exactly as it found
it and computes the functional loop on the current position. -/
theorem searchLoopM_eq {β μ : Type} (g : Game β μ)
    (f : BoardM β → Score → Score → Score × BoardM β)
    (fp : β → Score → Score → Score) (beta : Score)
    (hf : ∀ (bm : BoardM β) (a c : Score), f bm a c = (fp bm.cur a c, bm)) :
    ∀ (ms : List μ) (bm : BoardM β) (best alpha : Score),
      searchLoopM g f beta ms bm best alpha
        = (searchLoop g fp bm.cur beta ms best alpha, bm) := by
  intro ms
  induction ms with
  | nil =>
    intro bm best alpha
    rfl
  | cons mv ms ih =>
    intro bm best alpha
    have hcur : (pushM g bm mv).cur = g.apply bm.cur mv := rfl
    simp only [searchLoopM, searchLoop, hf, hcur]
    rw [popM_pushM]
    generalize sneg (fp (g.apply bm.cur mv) (sneg beta) (sneg alpha)) = s
    set b1 := if s > best then s else best with hb1
    set a1 := if b1 > alpha then b1 else alpha with ha1
    by_cases hc : a1 ≥ beta
    · rw [if_pos hc, if_pos hc]
    · rw [if_neg hc, if_neg hc]
      exact ih bm b1 a1

/-- `SimpleAI.search` leaves the board object exactly as it found it
and computes the functional `search` of the current position. -/
theorem searchM_eq {β μ : Type} (g : Game β μ) :
    ∀ (d : ℕ) (bm : BoardM β) (alpha beta : Score),
      searchM g d bm alpha beta = (search g d bm.cur alpha beta, bm) := by
  intro d
  induction d with
  | zero =>
    intro bm alpha beta
    rfl
  | succ d ih =>
    intro bm alpha beta
    simp only [searchM, search]
    split
    · rfl
    · exact searchLoopM_eq g (searchM g d) (search g d) beta ih _ bm _ _

/-- The root loop leaves the board object as it found it and computes
the functional root loop. -/
theorem bestLoopM_eq {β μ : Type} (g : Game β μ)
    (f : BoardM β → Score → Score → Score × BoardM β)
    (fp : β → Score → Score → Score) (beta : Score)
    (hf : ∀ (bm : BoardM β) (a c : Score), f bm a c = (fp bm.cur a c, bm)) :
    ∀ (ms : List μ) (bm : BoardM β) (acc : Option μ × Score) (alpha : Score),
      bestLoopM g f beta ms bm acc alpha
        = (bestLoop g fp bm.cur beta ms acc alpha, bm) := by
  intro ms
  induction ms with
  | nil =>
    intro bm acc alpha
    rfl
  | cons mv ms ih =>
    intro bm acc alpha
    have hcur : (pushM g bm mv).cur = g.apply bm.cur mv := rfl
    simp only [bestLoopM, bestLoop, hf, hcur]
    rw [popM_pushM]
    exact ih bm _ _

/-- `SimpleAI.best_move` leaves the board object as it found it and
computes the functional `best_move_scored` of the current position. -/
theorem best_moveM_eq {β μ : Type} (g : Game β μ) (bm : BoardM β) (depth : ℕ) :
    best_moveM g bm depth = (best_move_scored g bm.cur depth, bm) := by
  unfold best_moveM best_move_scored
  exact bestLoopM_eq g _ _ ⊤ (searchM_eq g (depth - 1)) _ bm _ _

/-- C1: for every position and depth ≥ 1, when `best_move` returns
(the embedding of its always-returning executions), the exported state
of the board object afterwards equals the exported state before the
call — in fact the whole board object (position and undo stack) is
returned exactly as it was: the internal push/pop mutations are
invisible to the caller. -/
theorem best_move_no_visible_side_effect {β μ : Type} (g : Game β μ)
    (bm : BoardM β) (depth : ℕ) (_hd : 1 ≤ depth) :
    ((best_moveM g bm depth).2).cur = bm.cur
    ∧ (best_moveM g bm depth).2 = bm := by
  rw [best_moveM_eq]
  exact ⟨rfl, rfl⟩

/-! ### C2: alpha-beta equivalence with the unpruned full-width negamax -/

theorem le_sneg_iff {a b : Score} : a ≤ sneg b ↔ b ≤ sneg a := by
  conv_lhs => rw [← sneg_sneg a]
  rw [sneg_le_sneg_iff]

theorem sneg_le_iff {a b : Score} : sneg a ≤ b ↔ sneg b ≤ a := by
  conv_lhs => rw [← sneg_sneg b]
  rw [sneg_le_sneg_iff]

theorem lt_sneg_iff {a b : Score} : a < sneg b ↔ b < sneg a := by
  conv_lhs => rw [← sneg_sneg a]
  rw [sneg_lt_sneg_iff]

theorem sneg_lt_iff {a b : Score} : sneg a < b ↔ sneg b < a := by
  conv_lhs => rw [← sneg_sneg b]
  rw [sneg_lt_sneg_iff]

theorem sneg_eq_top_iff {a : Score} : sneg a = ⊤ ↔ a = ⊥ := by
  constructor
  · intro h
    have := congrArg sneg h
    rwa [sneg_sneg, sneg_top] at this
  · rintro rfl
    rfl

theorem sneg_eq_bot_iff {a : Score} : sneg a = ⊥ ↔ a = ⊤ := by
  constructor
  · intro h
    have := congrArg sneg h
    rwa [sneg_sneg, sneg_bot] at this
  · rintro rfl
    rfl

/-- The Python idiom `best = score if score > best else best` is the max. -/
theorem if_gt_eq_max (a b : Score) : (if b > a then b else a) = max a b := by
  rcases le_or_lt b a with h | h
  · rw [if_neg (not_lt.mpr h), max_eq_left h]
  · rw [if_pos h, max_eq_right h.le]

/-- Modelled from the spec (the comparator of the alpha-beta equivalence
claim): an unpruned full-width negamax of the same depth with the same
move ordering and terminal evaluation, no `alpha`/`beta`, no cutoff. -/
def negamaxFull {β μ : Type} (g : Game β μ) : ℕ → β → Score
  | 0, b => sfin (evaluate (g.view b))
  | d + 1, b =>
    if g.isGameOver b then sfin (evaluate (g.view b))
    else (order_moves g b (g.legalMoves b)).foldl
      (fun acc mv => max acc (sneg (negamaxFull g d (g.apply b mv)))) ⊥

/-- Modelled from the spec: the root loop of the unpruned search,
tracking the first move attaining the running maximum. -/
def bestFullLoop {β μ : Type} (g : Game β μ) (f : β → Score) (b : β) :
    List μ → Option μ × Score → Option μ × Score
  | [], acc => acc
  | mv :: ms, acc =>
    let score := sneg (f (g.apply b mv))
    bestFullLoop g f b ms (if score > acc.2 then (some mv, score) else acc)

/-- Modelled from the spec: the unpruned `best_move`, for comparison. -/
def best_move_full {β μ : Type} (g : Game β μ) (b : β) (depth : ℕ) :
    Option μ × Score :=
  bestFullLoop g (negamaxFull g (depth - 1)) b (order_moves g b (g.legalMoves b)) (none, ⊥)

section FoldMax

variable {β μ : Type}

theorem le_foldl_maxf (h : μ → Score) :
    ∀ (ms : List μ) (a : Score), a ≤ ms.foldl (fun acc mv => max acc (h mv)) a := by
  intro ms
  induction ms with
  | nil =>
    intro a
    exact le_refl a
  | cons mv ms ih =>
    intro a
    exact le_trans (le_max_left a (h mv)) (ih (max a (h mv)))

theorem foldl_maxf_mono (h : μ → Score) :
    ∀ (ms : List μ) {a b : Score}, a ≤ b →
      ms.foldl (fun acc mv => max acc (h mv)) a ≤ ms.foldl (fun acc mv => max acc (h mv)) b := by
  intro ms
  induction ms with
  | nil =>
    intro a b hab
    exact hab
  | cons mv ms ih =>
    intro a b hab
    exact ih (max_le_max hab (le_refl (h mv)))

end FoldMax

/-- The loop (`searchLoop`) result is never below its starting `best`. -/
theorem searchLoop_ge_best {β μ : Type} (g : Game β μ)
    (f : β → Score → Score → Score) (b : β) (beta : Score) :
    ∀ (ms : List μ) (best alpha : Score),
      best ≤ searchLoop g f b beta ms best alpha := by
  intro ms
  induction ms with
  | nil =>
    intro best alpha
    exact le_refl best
  | cons mv ms ih =>
    intro best alpha
    simp only [searchLoop]
    set s := sneg (f (g.apply b mv) (sneg beta) (sneg alpha)) with hs
    set b1 := if s > best then s else best with hb1def
    have hb1 : best ≤ b1 := by
      rw [hb1def]
      split
      · next hgt => exact hgt.le
      · exact le_refl best
    set a1 := if b1 > alpha then b1 else alpha with ha1
    by_cases hc : a1 ≥ beta
    · rw [if_pos hc]
      exact hb1
    · rw [if_neg hc]
      exact le_trans hb1 (ih b1 a1)

/-- The Knuth-Moore fail-soft invariant of the `search` move loop:
relative to the entry window `(alpha0, beta)`, its result is an upper
bound of the true (unpruned) value when it fails low, exact inside the
window, and a lower bound when it fails high.  `best` carries the
pruned running maximum, `fbest` the true one. -/
theorem searchLoop_fail_soft {β μ : Type} (g : Game β μ) (d : ℕ) (b : β)
    (beta alpha0 : Score)
    (ih : ∀ (b' : β) (a c : Score), a < c →
      (search g d b' a c ≤ a → negamaxFull g d b' ≤ search g d b' a c)
      ∧ (a < search g d b' a c → search g d b' a c < c →
          search g d b' a c = negamaxFull g d b')
      ∧ (c ≤ search g d b' a c → search g d b' a c ≤ negamaxFull g d b')) :
    ∀ (ms : List μ) (best fbest alpha : Score),
      alpha = max alpha0 best → alpha < beta → fbest ≤ best →
      (alpha0 < best → best = fbest) →
      (searchLoop g (search g d) b beta ms best alpha ≤ alpha0 →
        ms.foldl (fun acc mv => max acc (sneg (negamaxFull g d (g.apply b mv)))) fbest
          ≤ searchLoop g (search g d) b beta ms best alpha)
      ∧ (alpha0 < searchLoop g (search g d) b beta ms best alpha →
          searchLoop g (search g d) b beta ms best alpha < beta →
          searchLoop g (search g d) b beta ms best alpha
            = ms.foldl (fun acc mv => max acc (sneg (negamaxFull g d (g.apply b mv)))) fbest)
      ∧ (beta ≤ searchLoop g (search g d) b beta ms best alpha →
          searchLoop g (search g d) b beta ms best alpha
            ≤ ms.foldl (fun acc mv => max acc (sneg (negamaxFull g d (g.apply b mv)))) fbest) := by
  intro ms
  induction ms with
  | nil =>
    intro best fbest alpha hA hab hfb heq
    simp only [searchLoop, List.foldl_nil]
    have hα0 : alpha0 ≤ alpha := hA ▸ le_max_left alpha0 best
    refine ⟨fun _ => hfb, fun h1 _ => heq h1, fun h2 => ?_⟩
    have hlt : alpha0 < best := lt_of_le_of_lt hα0 (lt_of_lt_of_le hab h2)
    exact (heq hlt).le
  | cons mv ms ihl =>
    intro best fbest alpha hA hab hfb heq
    simp only [searchLoop, List.foldl_cons]
    set bc := g.apply b mv with hbc
    set s := search g d bc (sneg beta) (sneg alpha) with hsdef
    set v := sneg (negamaxFull g d bc) with hvdef
    obtain ⟨c1, c2, c3⟩ := ih bc (sneg beta) (sneg alpha) (sneg_lt_sneg_iff.mpr hab)
    have t1 : beta ≤ sneg s → sneg s ≤ v := by
      intro h
      have h1 : s ≤ sneg beta := le_sneg_iff.mpr h
      exact sneg_le_sneg_iff.mpr (c1 h1)
    have t2 : alpha < sneg s → sneg s < beta → sneg s = v := by
      intro h1 h2
      have hb' : sneg beta < s := sneg_lt_iff.mpr h2
      have ha' : s < sneg alpha := lt_sneg_iff.mpr h1
      exact congrArg sneg (c2 hb' ha')
    have t3 : sneg s ≤ alpha → v ≤ sneg s := by
      intro h
      have h1 : sneg alpha ≤ s := sneg_le_iff.mpr h
      exact sneg_le_sneg_iff.mpr (c3 h1)
    rw [if_gt_eq_max best (sneg s), if_gt_eq_max alpha (max best (sneg s))]
    have hba : best ≤ alpha := hA ▸ le_max_right alpha0 best
    have hα0 : alpha0 ≤ alpha := hA ▸ le_max_left alpha0 best
    have ha1 : max alpha (max best (sneg s)) = max alpha (sneg s) := by
      rw [← max_assoc, max_eq_left hba]
    rw [ha1]
    by_cases hcut : max alpha (sneg s) ≥ beta
    · rw [if_pos hcut]
      have hsb : beta ≤ sneg s := by
        rcases le_max_iff.mp hcut with h | h
        · exact absurd (lt_of_lt_of_le hab h) (lt_irrefl alpha)
        · exact h
      have hsv : sneg s ≤ v := t1 hsb
      have hbv : best ≤ v :=
        le_trans hba (le_trans hab.le (le_trans hsb hsv))
      have hmv : max best (sneg s) ≤ max fbest v :=
        max_le (le_trans hbv (le_max_right _ _)) (le_trans hsv (le_max_right _ _))
      refine ⟨fun h => ?_, fun _ h2 => ?_, fun _ => ?_⟩
      · have hcontra : alpha < alpha :=
          lt_of_lt_of_le hab
            (le_trans hsb (le_trans (le_max_right best (sneg s)) (le_trans h hα0)))
        exact absurd hcontra (lt_irrefl alpha)
      · exact absurd (lt_of_le_of_lt (le_trans hsb (le_max_right best (sneg s))) h2)
          (lt_irrefl beta)
      · exact le_trans hmv (le_foldl_maxf _ ms _)
    · rw [if_neg hcut]
      have hcut' : max alpha (sneg s) < beta := not_le.mp hcut
      have hs_lt : sneg s < beta := lt_of_le_of_lt (le_max_right _ _) hcut'
      have hvle : v ≤ sneg s := by
        rcases le_or_lt (sneg s) alpha with hle | hgt
        · exact t3 hle
        · exact (t2 hgt hs_lt).symm.le
      have inv1 : max alpha (sneg s) = max alpha0 (max best (sneg s)) := by
        rw [hA, max_assoc]
      have inv3 : max fbest v ≤ max best (sneg s) := max_le_max hfb hvle
      have inv4 : alpha0 < max best (sneg s) → max best (sneg s) = max fbest v := by
        intro h
        rcases le_or_lt (sneg s) best with hsb | hbs
        · rw [max_eq_left hsb] at h ⊢
          have hbf := heq h
          rw [max_eq_left (le_trans hvle (le_trans hsb (le_of_eq hbf)))]
          exact hbf
        · rw [max_eq_right hbs.le] at h ⊢
          have hgt : alpha < sneg s := by
            rw [hA]
            exact max_lt h hbs
          have hveq : sneg s = v := t2 hgt hs_lt
          rw [← hveq, max_eq_right (le_trans hfb hbs.le)]
      exact ihl (max best (sneg s)) (max fbest v) (max alpha (sneg s)) inv1 hcut' inv3 inv4

/-- Node-level fail-soft soundness of `SimpleAI.search` against the
unpruned negamax: below the window the result bounds the true value
from above, inside the window it is exact, above it bounds from below. -/
theorem fail_soft {β μ : Type} (g : Game β μ) :
    ∀ (d : ℕ) (b : β) (alpha beta : Score), alpha < beta →
      (search g d b alpha beta ≤ alpha → negamaxFull g d b ≤ search g d b alpha beta)
      ∧ (alpha < search g d b alpha beta → search g d b alpha beta < beta →
          search g d b alpha beta = negamaxFull g d b)
      ∧ (beta ≤ search g d b alpha beta → search g d b alpha beta ≤ negamaxFull g d b) := by
  intro d
  induction d with
  | zero =>
    intro b alpha beta hab
    exact ⟨fun _ => le_refl _, fun _ _ => rfl, fun _ => le_refl _⟩
  | succ d ihd =>
    intro b alpha beta hab
    by_cases hover : g.isGameOver b = true
    · have h1 : search g (d + 1) b alpha beta = sfin (evaluate (g.view b)) := by
        simp only [search, if_pos hover]
      have h2 : negamaxFull g (d + 1) b = sfin (evaluate (g.view b)) := by
        simp only [negamaxFull, if_pos hover]
      rw [h1, h2]
      exact ⟨fun _ => le_refl _, fun _ _ => rfl, fun _ => le_refl _⟩
    · simp only [search, negamaxFull, if_neg hover]
      exact searchLoop_fail_soft g d b beta alpha ihd
        (order_moves g b (g.legalMoves b)) ⊥ ⊥ alpha
        (max_eq_left bot_le).symm hab (le_refl ⊥)
        (fun h => absurd h (not_lt.mpr bot_le))

theorem order_moves_eq_nil_iff {β μ : Type} (g : Game β μ) (b : β) (ms : List μ) :
    order_moves g b ms = [] ↔ ms = [] := by
  constructor
  · intro h
    rcases List.append_eq_nil.mp h with ⟨h1, h2⟩
    cases ms with
    | nil => rfl
    | cons x xs =>
      exfalso
      by_cases hc : g.isCapture b x = true
      · have hx : x ∈ (x :: xs).filter (fun m => g.isCapture b m) :=
          List.mem_filter.mpr ⟨List.mem_cons_self _ _, hc⟩
        rw [h1] at hx
        exact absurd hx (List.not_mem_nil x)
      · have hx : x ∈ (x :: xs).filter (fun m => !(g.isCapture b m)) :=
          List.mem_filter.mpr ⟨List.mem_cons_self _ _, by simp [hc]⟩
        rw [h2] at hx
        exact absurd hx (List.not_mem_nil x)
  · rintro rfl
    rfl

/-- One unfolding of the move loop is bounded below by the first
candidate's contribution. -/
theorem searchLoop_cons_ge {β μ : Type} (g : Game β μ)
    (f : β → Score → Score → Score) (b : β) (beta : Score) (m : μ)
    (rest : List μ) (best alpha : Score) :
    max best (sneg (f (g.apply b m) (sneg beta) (sneg alpha)))
      ≤ searchLoop g f b beta (m :: rest) best alpha := by
  simp only [searchLoop]
  rw [if_gt_eq_max best (sneg (f (g.apply b m) (sneg beta) (sneg alpha))),
    if_gt_eq_max alpha (max best (sneg (f (g.apply b m) (sneg beta) (sneg alpha))))]
  split
  · exact le_refl _
  · exact searchLoop_ge_best g f b beta rest _ _

/-- The move loop cannot produce `+inf` when no recursive call produces
`-inf`. -/
theorem searchLoop_ne_top {β μ : Type} (g : Game β μ)
    (f : β → Score → Score → Score) (b : β) (beta : Score) :
    ∀ (ms : List μ), (∀ mv ∈ ms, ∀ a c : Score, f (g.apply b mv) a c ≠ ⊥) →
      ∀ best alpha, best ≠ ⊤ → searchLoop g f b beta ms best alpha ≠ ⊤ := by
  intro ms
  induction ms with
  | nil =>
    intro _ best alpha hb
    simpa [searchLoop] using hb
  | cons mv rest ih =>
    intro hf best alpha hb
    simp only [searchLoop]
    set s := sneg (f (g.apply b mv) (sneg beta) (sneg alpha)) with hs
    have hsne : s ≠ ⊤ := by
      rw [hs, Ne, sneg_eq_top_iff]
      exact hf mv (List.mem_cons_self _ _) _ _
    set b1 := if s > best then s else best with hb1
    have hb1ne : b1 ≠ ⊤ := by
      rw [hb1]
      split
      · exact hsne
      · exact hb
    set a1 := if b1 > alpha then b1 else alpha with ha1
    by_cases hc : a1 ≥ beta
    · rw [if_pos hc]
      exact hb1ne
    · rw [if_neg hc]
      exact ih (fun m hm => hf m (List.mem_cons_of_mem _ hm)) b1 a1 hb1ne

/-- With the chess fact that a position with no legal move is game over
(true of python-chess: such positions are checkmate or stalemate),
`search` never returns an infinite score. -/
theorem search_ne_bot_top {β μ : Type} (g : Game β μ)
    (hne : ∀ b, g.isGameOver b = false → g.legalMoves b ≠ []) :
    ∀ (d : ℕ) (b : β) (alpha beta : Score),
      search g d b alpha beta ≠ ⊥ ∧ search g d b alpha beta ≠ ⊤ := by
  intro d
  induction d with
  | zero =>
    intro b alpha beta
    exact ⟨sfin_ne_bot _, sfin_ne_top _⟩
  | succ d ihd =>
    intro b alpha beta
    by_cases hover : g.isGameOver b = true
    · simp only [search, if_pos hover]
      exact ⟨sfin_ne_bot _, sfin_ne_top _⟩
    · simp only [search, if_neg hover]
      have hov' : g.isGameOver b = false := by
        cases hgb : g.isGameOver b
        · rfl
        · exact absurd hgb hover
      have hms : order_moves g b (g.legalMoves b) ≠ [] := by
        intro h
        exact hne b hov' ((order_moves_eq_nil_iff g b _).mp h)
      obtain ⟨m, rest, hcons⟩ : ∃ m rest,
          order_moves g b (g.legalMoves b) = m :: rest := by
        cases hms' : order_moves g b (g.legalMoves b) with
        | nil => exact absurd hms' hms
        | cons m rest => exact ⟨m, rest, rfl⟩
      rw [hcons]
      constructor
      · have hscore : sneg (search g d (g.apply b m) (sneg beta) (sneg alpha)) ≠ ⊥ := by
          rw [Ne, sneg_eq_bot_iff]
          exact (ihd (g.apply b m) (sneg beta) (sneg alpha)).2
        have hge := searchLoop_cons_ge g (search g d) b beta m rest ⊥ alpha
        intro hres
        rw [hres] at hge
        exact hscore (le_bot_iff.mp
          (le_trans (le_max_right ⊥ _) hge))
      · exact searchLoop_ne_top g (search g d) b beta (m :: rest)
          (fun mv _ a c => (ihd (g.apply b mv) a c).1) ⊥ alpha bot_ne_top

/-- The pruned root loop and the unpruned root loop agree step for
step, given the running `alpha = best_score` invariant of `best_move`
(both start at `-inf`) and finiteness of the running best. -/
theorem bestLoop_eq_full {β μ : Type} (g : Game β μ) (d : ℕ) (b : β)
    (hne : ∀ b', g.isGameOver b' = false → g.legalMoves b' ≠ []) :
    ∀ (ms : List μ) (mv0 : Option μ) (s0 : Score), s0 ≠ ⊤ →
      bestLoop g (search g d) b ⊤ ms (mv0, s0) s0
        = bestFullLoop g (negamaxFull g d) b ms (mv0, s0) := by
  intro ms
  induction ms with
  | nil =>
    intro mv0 s0 _
    rfl
  | cons mv rest ih =>
    intro mv0 s0 hs0
    simp only [bestLoop, bestFullLoop]
    set sp := sneg (search g d (g.apply b mv) (sneg ⊤) (sneg s0)) with hsp
    set sf := sneg (negamaxFull g d (g.apply b mv)) with hsf
    have hαβ : s0 < ⊤ := lt_top_iff_ne_top.mpr hs0
    obtain ⟨c1, c2, c3⟩ :=
      fail_soft g d (g.apply b mv) (sneg ⊤) (sneg s0) (sneg_lt_sneg_iff.mpr hαβ)
    have hspne : sp ≠ ⊤ := by
      rw [hsp, Ne, sneg_eq_top_iff]
      exact (search_ne_bot_top g hne d (g.apply b mv) (sneg ⊤) (sneg s0)).1
    have t2 : s0 < sp → sp < ⊤ → sp = sf := by
      intro h1 h2
      have hb' : sneg ⊤ < search g d (g.apply b mv) (sneg ⊤) (sneg s0) :=
        sneg_lt_iff.mpr h2
      have ha' : search g d (g.apply b mv) (sneg ⊤) (sneg s0) < sneg s0 :=
        lt_sneg_iff.mpr h1
      exact congrArg sneg (c2 hb' ha')
    have t3 : sp ≤ s0 → sf ≤ sp := by
      intro h
      have h1 : sneg s0 ≤ search g d (g.apply b mv) (sneg ⊤) (sneg s0) :=
        sneg_le_iff.mpr h
      exact sneg_le_sneg_iff.mpr (c3 h1)
    by_cases hgt : s0 < sp
    · have hspf : sp = sf := t2 hgt (lt_top_iff_ne_top.mpr hspne)
      have hsf' : s0 < sf := hspf ▸ hgt
      simp only [gt_iff_lt, hgt, hsf', if_true, hspf]
      exact ih (some mv) sf (hspf ▸ hspne)
    · have hle : sp ≤ s0 := not_lt.mp hgt
      have hsfng : ¬ s0 < sf := not_lt.mpr (le_trans (t3 hle) hle)
      simp only [gt_iff_lt, hgt, hsfng, if_false, lt_self_iff_false]
      exact ih mv0 s0 hs0

/-- C2: with the chess fact that no-legal-move positions are game over,
the move and root score computed by the pruned `best_move` equal those
of the unpruned full-width negamax of the same depth with the same
capture-first ordering (and the board object is handed back untouched):
pruning never changes the result. -/
theorem best_move_eq_unpruned {β μ : Type} (g : Game β μ)
    (hne : ∀ b', g.isGameOver b' = false → g.legalMoves b' ≠ [])
    (bm : BoardM β) (depth : ℕ) (_hd : 1 ≤ depth) :
    best_moveM g bm depth = (best_move_full g bm.cur depth, bm) := by
  rw [best_moveM_eq]
  unfold best_move_scored best_move_full
  exact congrArg (fun x => (x, bm))
    (bestLoop_eq_full g (depth - 1) bm.cur hne
      (order_moves g bm.cur (g.legalMoves bm.cur)) none ⊥ bot_ne_top)

/-- A tiny concrete rules authority for witnesses: board 0 is live with
two moves (move 1 is a capture), boards 1 and 2 are game over. -/
def demoGame : Game (Fin 3) (Fin 2) where
  legalMoves b := if b = 0 then [0, 1] else []
  isCapture _ m := decide (m = 1)
  apply b m := if b = 0 then (if m = 0 then 1 else 2) else b
  isGameOver b := decide (b ≠ 0)
  view b :=
    { isCheckmate := false, isStalemate := false, isInsufficientMaterial := false,
      canClaimDraw := false, turn := true, pieceMap := [(PieceType.pawn, true)],
      legalMovesCount := b.val, isCheck := false }

/-- C1 witness at depth 1 on the concrete game: the board object comes
back untouched. -/
theorem best_move_no_visible_side_effect_witness :
    (1 ≤ 1)
    ∧ ((best_moveM demoGame ⟨(0 : Fin 3), []⟩ 1).2).cur
        = (BoardM.mk (0 : Fin 3) []).cur
    ∧ (best_moveM demoGame ⟨(0 : Fin 3), []⟩ 1).2 = BoardM.mk (0 : Fin 3) [] :=
  ⟨le_refl 1,
    best_move_no_visible_side_effect demoGame ⟨(0 : Fin 3), []⟩ 1 (le_refl 1)⟩

/-- C2 witness at depth 2 on the concrete game: pruned and unpruned
agree (the chess fact holds there by computation). -/
theorem best_move_eq_unpruned_witness :
    (∀ b' : Fin 3, demoGame.isGameOver b' = false → demoGame.legalMoves b' ≠ [])
    ∧ (1 ≤ 2)
    ∧ best_moveM demoGame ⟨(0 : Fin 3), []⟩ 2
        = (best_move_full demoGame (0 : Fin 3) 2, ⟨(0 : Fin 3), []⟩) :=
  ⟨by decide, by decide,
    best_move_eq_unpruned demoGame (by decide) ⟨(0 : Fin 3), []⟩ 2 (by decide)⟩

/-! ### C9: none iff no legal moves; else the first argmax legal move -/

theorem order_moves_subset {β μ : Type} (g : Game β μ) (b : β) (ms : List μ)
    (m : μ) (h : m ∈ order_moves g b ms) : m ∈ ms := by
  rcases List.mem_append.mp h with h | h
  · exact (List.mem_filter.mp h).1
  · exact (List.mem_filter.mp h).1

theorem foldl_maxf_ne_top {μ : Type} (h : μ → Score) :
    ∀ (ms : List μ) (a : Score), a ≠ ⊤ → (∀ mv ∈ ms, h mv ≠ ⊤) →
      ms.foldl (fun acc mv => max acc (h mv)) a ≠ ⊤ := by
  intro ms
  induction ms with
  | nil =>
    intro a ha _
    simpa using ha
  | cons mv rest ih =>
    intro a ha hf
    simp only [List.foldl_cons]
    apply ih
    · rcases max_choice a (h mv) with hc | hc <;> rw [hc]
      · exact ha
      · exact hf mv (List.mem_cons_self _ _)
    · exact fun m hm => hf m (List.mem_cons_of_mem _ hm)

/-- With the chess fact, the unpruned negamax value is finite too. -/
theorem negamaxFull_ne_bot_top {β μ : Type} (g : Game β μ)
    (hne : ∀ b, g.isGameOver b = false → g.legalMoves b ≠ []) :
    ∀ (d : ℕ) (b : β), negamaxFull g d b ≠ ⊥ ∧ negamaxFull g d b ≠ ⊤ := by
  intro d
  induction d with
  | zero =>
    intro b
    exact ⟨sfin_ne_bot _, sfin_ne_top _⟩
  | succ d ihd =>
    intro b
    by_cases hover : g.isGameOver b = true
    · simp only [negamaxFull, if_pos hover]
      exact ⟨sfin_ne_bot _, sfin_ne_top _⟩
    · simp only [negamaxFull, if_neg hover]
      have hov' : g.isGameOver b = false := by
        cases hgb : g.isGameOver b
        · rfl
        · exact absurd hgb hover
      have hms : order_moves g b (g.legalMoves b) ≠ [] := by
        intro h
        exact hne b hov' ((order_moves_eq_nil_iff g b _).mp h)
      obtain ⟨m, rest, hcons⟩ : ∃ m rest,
          order_moves g b (g.legalMoves b) = m :: rest := by
        cases hms' : order_moves g b (g.legalMoves b) with
        | nil => exact absurd hms' hms
        | cons m rest => exact ⟨m, rest, rfl⟩
      rw [hcons]
      simp only [List.foldl_cons]
      constructor
      · have hgen := le_foldl_maxf (fun mv => sneg (negamaxFull g d (g.apply b mv)))
          rest (max ⊥ (sneg (negamaxFull g d (g.apply b m))))
        intro h0
        rw [h0] at hgen
        have hch : sneg (negamaxFull g d (g.apply b m)) ≠ ⊥ := by
          rw [Ne, sneg_eq_bot_iff]
          exact (ihd _).2
        exact hch (le_bot_iff.mp (le_trans (le_max_right _ _) hgen))
      · apply foldl_maxf_ne_top
        · rcases max_choice ⊥ (sneg (negamaxFull g d (g.apply b m))) with hc | hc <;> rw [hc]
          · exact bot_ne_top
          · rw [Ne, sneg_eq_top_iff]
            exact (ihd _).1
        · intro mv _
          rw [Ne, sneg_eq_top_iff]
          exact (ihd _).1

/-- The accumulator of the unpruned root loop after processing a prefix:
`none` only before anything was processed, otherwise the first move of
the prefix attaining the maximal score, with its score. -/
def AccInv {μ : Type} (f : μ → Score) (processed : List μ)
    (acc : Option μ × Score) : Prop :=
  match acc with
  | (none, s) => processed = [] ∧ s = ⊥
  | (some m, s) => s = f m ∧ (∀ x ∈ processed, f x ≤ s)
      ∧ ∃ l1 l2, processed = l1 ++ m :: l2 ∧ ∀ x ∈ l1, f x < s

theorem bestFullLoop_inv {β μ : Type} (g : Game β μ) (fv : β → Score) (b : β) :
    ∀ (ms p : List μ) (acc : Option μ × Score),
      (∀ mv ∈ ms, sneg (fv (g.apply b mv)) ≠ ⊥) →
      AccInv (fun m => sneg (fv (g.apply b m))) p acc →
      AccInv (fun m => sneg (fv (g.apply b m))) (p ++ ms)
        (bestFullLoop g fv b ms acc) := by
  intro ms
  induction ms with
  | nil =>
    intro p acc _ h
    simpa using h
  | cons mv ms ih =>
    intro p acc hf hinv
    have hfmv : sneg (fv (g.apply b mv)) ≠ ⊥ := hf mv (List.mem_cons_self _ _)
    have happ : p ++ mv :: ms = (p ++ [mv]) ++ ms := by simp
    rw [happ]
    simp only [bestFullLoop]
    apply ih (p ++ [mv]) _ (fun m hm => hf m (List.mem_cons_of_mem _ hm))
    rcases acc with ⟨omv, s⟩
    rcases omv with _ | m
    · obtain ⟨hp, hs⟩ := hinv
      subst hp
      subst hs
      rw [if_pos (bot_lt_iff_ne_bot.mpr hfmv)]
      refine ⟨rfl, ?_, [], [], by simp, by simp⟩
      intro x hx
      simp only [List.nil_append, List.mem_singleton] at hx
      subst hx
      exact le_refl _
    · obtain ⟨hs, hbound, l1, l2, hsplit, hlt⟩ := hinv
      by_cases hup : sneg (fv (g.apply b mv)) > s
      · rw [if_pos hup]
        refine ⟨rfl, ?_, p, [], by simp, ?_⟩
        · intro x hx
          rcases List.mem_append.mp hx with hx | hx
          · exact le_trans (hbound x hx) hup.le
          · rw [List.mem_singleton] at hx
            subst hx
            exact le_refl _
        · intro x hx
          exact lt_of_le_of_lt (hbound x hx) hup
      · rw [if_neg hup]
        refine ⟨hs, ?_, l1, l2 ++ [mv], by rw [hsplit]; simp, hlt⟩
        intro x hx
        rcases List.mem_append.mp hx with hx | hx
        · exact hbound x hx
        · rw [List.mem_singleton] at hx
          subst hx
          exact not_lt.mp hup

/-- C9: `best_move` returns no move exactly when the position has no
legal move; otherwise it returns a legal move, namely the first move of
the capture-first ordering attaining the maximal root score (its root
score being the returned best score), ties broken by order. -/
theorem best_move_none_iff_first_argmax {β μ : Type} (g : Game β μ)
    (hne : ∀ b', g.isGameOver b' = false → g.legalMoves b' ≠ [])
    (bm : BoardM β) (depth : ℕ) (_hd : 1 ≤ depth) :
    ((best_moveM g bm depth).1.1 = none ↔ g.legalMoves bm.cur = [])
    ∧ ∀ m, (best_moveM g bm depth).1.1 = some m →
        m ∈ g.legalMoves bm.cur
        ∧ (best_moveM g bm depth).1.2
            = sneg (negamaxFull g (depth - 1) (g.apply bm.cur m))
        ∧ (∀ m' ∈ order_moves g bm.cur (g.legalMoves bm.cur),
            sneg (negamaxFull g (depth - 1) (g.apply bm.cur m'))
              ≤ sneg (negamaxFull g (depth - 1) (g.apply bm.cur m)))
        ∧ ∃ l1 l2,
            order_moves g bm.cur (g.legalMoves bm.cur) = l1 ++ m :: l2
            ∧ ∀ m' ∈ l1,
              sneg (negamaxFull g (depth - 1) (g.apply bm.cur m'))
                < sneg (negamaxFull g (depth - 1) (g.apply bm.cur m)) := by
  have hpair : (best_moveM g bm depth).1
      = bestFullLoop g (negamaxFull g (depth - 1)) bm.cur
          (order_moves g bm.cur (g.legalMoves bm.cur)) (none, ⊥) := by
    rw [best_moveM_eq]
    exact bestLoop_eq_full g (depth - 1) bm.cur hne _ none ⊥ bot_ne_top
  have hf : ∀ mv ∈ order_moves g bm.cur (g.legalMoves bm.cur),
      sneg (negamaxFull g (depth - 1) (g.apply bm.cur mv)) ≠ ⊥ := by
    intro mv _
    rw [Ne, sneg_eq_bot_iff]
    exact (negamaxFull_ne_bot_top g hne (depth - 1) _).2
  have hinv := bestFullLoop_inv g (negamaxFull g (depth - 1)) bm.cur
      (order_moves g bm.cur (g.legalMoves bm.cur)) [] (none, ⊥) hf ⟨rfl, rfl⟩
  rw [List.nil_append] at hinv
  rcases hres : bestFullLoop g (negamaxFull g (depth - 1)) bm.cur
      (order_moves g bm.cur (g.legalMoves bm.cur)) (none, ⊥) with ⟨omv, s⟩
  rw [hres] at hinv
  rw [hpair, hres]
  rcases omv with _ | m0
  · obtain ⟨hord, hsbot⟩ := hinv
    constructor
    · simp only [Prod.fst]
      constructor
      · intro _
        exact (order_moves_eq_nil_iff g bm.cur _).mp hord
      · intro _
        trivial
    · intro m hm
      exact absurd hm (by simp)
  · obtain ⟨hs, hbound, l1, l2, hsplit, hlt⟩ := hinv
    dsimp only at hs hbound hlt
    constructor
    · constructor
      · intro h
        exact absurd h (by simp)
      · intro hleg
        exfalso
        rw [hleg] at hsplit
        have : order_moves g bm.cur ([] : List μ) = [] := rfl
        rw [this] at hsplit
        exact absurd hsplit.symm (List.append_ne_nil_of_right_ne_nil _ (by simp))
    · intro m hm
      have hm0 : m0 = m := by
        simpa using hm
      subst hm0
      refine ⟨?_, hs, ?_, l1, l2, hsplit, ?_⟩
      · apply order_moves_subset g bm.cur _ m0
        rw [hsplit]
        exact List.mem_append_right _ (List.mem_cons_self _ _)
      · intro m' hm'
        rw [← hs]
        exact hbound m' hm'
      · intro m' hm'
        rw [← hs]
        exact hlt m' hm'

/-- C9 witness on the concrete game at depth 1: two legal moves on
board 0, with the capture ordered first. -/
theorem best_move_none_iff_first_argmax_witness :
    (∀ b' : Fin 3, demoGame.isGameOver b' = false → demoGame.legalMoves b' ≠ [])
    ∧ (1 ≤ 1)
    ∧ (((best_moveM demoGame (BoardM.mk (0 : Fin 3) []) 1).1.1 = none
          ↔ demoGame.legalMoves (BoardM.mk (0 : Fin 3) []).cur = [])
        ∧ ∀ m, (best_moveM demoGame (BoardM.mk (0 : Fin 3) []) 1).1.1 = some m →
            m ∈ demoGame.legalMoves (BoardM.mk (0 : Fin 3) []).cur
            ∧ (best_moveM demoGame (BoardM.mk (0 : Fin 3) []) 1).1.2
                = sneg (negamaxFull demoGame (1 - 1)
                    (demoGame.apply (BoardM.mk (0 : Fin 3) []).cur m))
            ∧ (∀ m' ∈ order_moves demoGame (BoardM.mk (0 : Fin 3) []).cur
                  (demoGame.legalMoves (BoardM.mk (0 : Fin 3) []).cur),
                sneg (negamaxFull demoGame (1 - 1)
                    (demoGame.apply (BoardM.mk (0 : Fin 3) []).cur m'))
                  ≤ sneg (negamaxFull demoGame (1 - 1)
                    (demoGame.apply (BoardM.mk (0 : Fin 3) []).cur m)))
            ∧ ∃ l1 l2,
                order_moves demoGame (BoardM.mk (0 : Fin 3) []).cur
                    (demoGame.legalMoves (BoardM.mk (0 : Fin 3) []).cur)
                  = l1 ++ m :: l2
                ∧ ∀ m' ∈ l1,
                  sneg (negamaxFull demoGame (1 - 1)
                      (demoGame.apply (BoardM.mk (0 : Fin 3) []).cur m'))
                    < sneg (negamaxFull demoGame (1 - 1)
                      (demoGame.apply (BoardM.mk (0 : Fin 3) []).cur m))) :=
  ⟨by decide, le_refl 1,
    best_move_none_iff_first_argmax demoGame (by decide)
      (BoardM.mk (0 : Fin 3) []) 1 (le_refl 1)⟩

/-! ### C4: push/pop pairing under internal errors

The source loop is `board.push(mv); score = -self.search(...);
board.pop()` with no try/finally, so when the recursive call raises,
the pop is skipped and the exception propagates with the board still
mutated.  The fallible embedding makes the collaborator's terminal
evaluation able to fail (the spec's SearchFault); errors carry the
board object as it is at the moment of propagation. -/

/-- A rules authority whose evaluation queries can fail internally. -/
structure GameE (β μ : Type) where
  legalMoves : β → List μ
  isCapture : β → μ → Bool
  apply : β → μ → β
  isGameOver : β → Bool
  evalE : β → Except String ℤ

/-- `order_moves` for the fallible authority (same Python code). -/
def order_movesE {β μ : Type} (g : GameE β μ) (b : β) (moves : List μ) : List μ :=
  moves.filter (fun m => g.isCapture b m) ++ moves.filter (fun m => !(g.isCapture b m))

/-- `board.push` for the fallible authority. -/
def pushME {β μ : Type} (g : GameE β μ) (bm : BoardM β) (mv : μ) : BoardM β :=
  { cur := g.apply bm.cur mv, stack := bm.cur :: bm.stack }

theorem popM_pushME {β μ : Type} (g : GameE β μ) (bm : BoardM β) (mv : μ) :
    popM (pushME g bm mv) = bm := rfl

/-- The fallible terminal evaluation (`SimpleAI.evaluate` calling a
failing collaborator). -/
def evalFE {β μ : Type} (g : GameE β μ) (bm : BoardM β) :
    Except (String × BoardM β) (Score × BoardM β) :=
  match g.evalE bm.cur with
  | .error e => .error (e, bm)
  | .ok z => .ok (sfin z, bm)

/-- The `search` move loop under possible recursive faults: the pop on
the line after the recursive call runs only on normal return; an error
propagates immediately, pop skipped. -/
def searchLoopE {β μ : Type} (g : GameE β μ)
    (f : BoardM β → Score → Score → Except (String × BoardM β) (Score × BoardM β))
    (beta : Score) :
    List μ → BoardM β → Score → Score →
      Except (String × BoardM β) (Score × BoardM β)
  | [], bm, best, _ => .ok (best, bm)
  | mv :: ms, bm, best, alpha =>
    let bm1 := pushME g bm mv
    match f bm1 (sneg beta) (sneg alpha) with
    | .error e => .error e
    | .ok (s, bm2) =>
      let score := sneg s
      let bm3 := popM bm2
      let best1 := if score > best then score else best
      let alpha1 := if best1 > alpha then best1 else alpha
      if alpha1 ≥ beta then .ok (best1, bm3)
      else searchLoopE g f beta ms bm3 best1 alpha1

/-- `SimpleAI.search` under possible collaborator faults. -/
def searchE {β μ : Type} (g : GameE β μ) :
    ℕ → BoardM β → Score → Score → Except (String × BoardM β) (Score × BoardM β)
  | 0, bm, _, _ => evalFE g bm
  | d + 1, bm, alpha, beta =>
    if g.isGameOver bm.cur then evalFE g bm
    else searchLoopE g (searchE g d) beta
      (order_movesE g bm.cur (g.legalMoves bm.cur)) bm ⊥ alpha

/-- The `best_move` root loop under possible recursive faults. -/
def bestLoopE {β μ : Type} (g : GameE β μ)
    (f : BoardM β → Score → Score → Except (String × BoardM β) (Score × BoardM β))
    (beta : Score) :
    List μ → BoardM β → Option μ × Score → Score →
      Except (String × BoardM β) ((Option μ × Score) × BoardM β)
  | [], bm, acc, _ => .ok (acc, bm)
  | mv :: ms, bm, acc, alpha =>
    let bm1 := pushME g bm mv
    match f bm1 (sneg beta) (sneg alpha) with
    | .error e => .error e
    | .ok (s, bm2) =>
      let score := sneg s
      let bm3 := popM bm2
      let acc1 := if score > acc.2 then (some mv, score) else acc
      let alpha1 := if acc1.2 > alpha then acc1.2 else alpha
      bestLoopE g f beta ms bm3 acc1 alpha1

/-- `SimpleAI.best_move` under possible collaborator faults. -/
def best_moveE {β μ : Type} (g : GameE β μ) (bm : BoardM β) (depth : ℕ) :
    Except (String × BoardM β) ((Option μ × Score) × BoardM β) :=
  bestLoopE g (searchE g (depth - 1)) ⊤
    (order_movesE g bm.cur (g.legalMoves bm.cur)) bm (none, ⊥) ⊥

theorem searchLoopE_ok {β μ : Type} {g : GameE β μ}
    {f : BoardM β → Score → Score → Except (String × BoardM β) (Score × BoardM β)}
    {beta : Score}
    (hf : ∀ bm a c r, f bm a c = .ok r → r.2 = bm) :
    ∀ (ms : List μ) (bm : BoardM β) (best alpha : Score) (r : Score × BoardM β),
      searchLoopE g f beta ms bm best alpha = .ok r → r.2 = bm := by
  intro ms
  induction ms with
  | nil =>
    intro bm best alpha r h
    cases h
    rfl
  | cons mv ms ih =>
    intro bm best alpha r h
    simp only [searchLoopE] at h
    cases hcall : f (pushME g bm mv) (sneg beta) (sneg alpha) with
    | error e =>
      rw [hcall] at h
      exact absurd h (by simp)
    | ok p =>
      rw [hcall] at h
      obtain ⟨s, bm2⟩ := p
      have hbm2 : bm2 = pushME g bm mv := hf _ _ _ (s, bm2) hcall
      dsimp only at h
      rw [hbm2, popM_pushME] at h
      generalize hb1 : (if sneg s > best then sneg s else best) = b1 at h
      generalize ha1 : (if b1 > alpha then b1 else alpha) = a1 at h
      by_cases hc : a1 ≥ beta
      · rw [if_pos hc] at h
        cases h
        rfl
      · rw [if_neg hc] at h
        exact ih _ _ _ r h

theorem bestLoopE_ok {β μ : Type} {g : GameE β μ}
    {f : BoardM β → Score → Score → Except (String × BoardM β) (Score × BoardM β)}
    {beta : Score}
    (hf : ∀ bm a c r, f bm a c = .ok r → r.2 = bm) :
    ∀ (ms : List μ) (bm : BoardM β) (acc : Option μ × Score) (alpha : Score)
      (r : (Option μ × Score) × BoardM β),
      bestLoopE g f beta ms bm acc alpha = .ok r → r.2 = bm := by
  intro ms
  induction ms with
  | nil =>
    intro bm acc alpha r h
    cases h
    rfl
  | cons mv ms ih =>
    intro bm acc alpha r h
    simp only [bestLoopE] at h
    cases hcall : f (pushME g bm mv) (sneg beta) (sneg alpha) with
    | error e =>
      rw [hcall] at h
      exact absurd h (by simp)
    | ok p =>
      rw [hcall] at h
      obtain ⟨s, bm2⟩ := p
      have hbm2 : bm2 = pushME g bm mv := hf _ _ _ (s, bm2) hcall
      dsimp only at h
      rw [hbm2, popM_pushME] at h
      exact ih _ _ _ r h

/-- C4 amended: every push in the move loops of `search` and
`best_move` is matched by a pop on every normally-returning control
path (including the alpha-beta cutoff break), so a normal return hands
the board object back exactly as received; but when the recursive call
raises, the error propagates to the caller with the pending pop
skipped — the board is NOT restored on the exceptional path. -/
theorem search_push_pop_balanced_on_normal_return {β μ : Type} (g : GameE β μ) :
    (∀ (d : ℕ) (bm : BoardM β) (alpha beta : Score) (r : Score × BoardM β),
      searchE g d bm alpha beta = .ok r → r.2 = bm)
    ∧ (∀ (bm : BoardM β) (depth : ℕ) (r : (Option μ × Score) × BoardM β),
      best_moveE g bm depth = .ok r → r.2 = bm) := by
  have hsearch : ∀ (d : ℕ) (bm : BoardM β) (alpha beta : Score) (r : Score × BoardM β),
      searchE g d bm alpha beta = .ok r → r.2 = bm := by
    intro d
    induction d with
    | zero =>
      intro bm alpha beta r h
      unfold searchE evalFE at h
      cases hev : g.evalE bm.cur with
      | error e =>
        rw [hev] at h
        exact absurd h (by simp)
      | ok z =>
        rw [hev] at h
        cases h
        rfl
    | succ d ih =>
      intro bm alpha beta r h
      unfold searchE at h
      split at h
      · unfold evalFE at h
        cases hev : g.evalE bm.cur with
        | error e =>
          rw [hev] at h
          exact absurd h (by simp)
        | ok z =>
          rw [hev] at h
          cases h
          rfl
      · exact searchLoopE_ok (fun bm' a c r' => ih bm' a c r') _ bm _ _ r h
  exact ⟨hsearch, fun bm depth r h =>
    bestLoopE_ok (fun bm' a c r' => hsearch (depth - 1) bm' a c r') _ bm _ _ r h⟩

/-- The faulting rules authority: board 0 is live with one move leading
to board 1, where the collaborator's evaluation raises. -/
def faultGame : GameE (Fin 2) (Fin 1) where
  legalMoves b := if b = 0 then [0] else []
  isCapture _ _ := false
  apply _ _ := 1
  isGameOver _ := false
  evalE b := if b = 1 then .error "rules fault" else .ok 0

/-- C4 counterexample: at depth 1 from board 0, the recursive search
call raises inside the loop and the error propagates with the board
still in the pushed state (current position 1, one stack frame) — not
restored to the pre-push state 0. -/
theorem search_error_leaves_board_pushed :
    searchE faultGame 1 (BoardM.mk (0 : Fin 2) []) ⊥ ⊤
      = .error ("rules fault", BoardM.mk (1 : Fin 2) [0])
    ∧ (BoardM.mk (1 : Fin 2) [0]).cur ≠ (BoardM.mk (0 : Fin 2) []).cur := by
  refine ⟨rfl, by decide⟩

/-- The same authority with a never-failing evaluation, for the
amended-theorem witness. -/
def okGame : GameE (Fin 2) (Fin 1) where
  legalMoves b := if b = 0 then [0] else []
  isCapture _ _ := false
  apply _ _ := 1
  isGameOver _ := false
  evalE _ := .ok 0

/-- C4 amended-theorem witness: with a non-faulting authority the same
call returns normally and hands back the board object untouched. -/
theorem search_push_pop_balanced_witness :
    searchE okGame 1 (BoardM.mk (0 : Fin 2) []) ⊥ ⊤
      = .ok (sfin 0, BoardM.mk (0 : Fin 2) [])
    ∧ (sfin 0, BoardM.mk (0 : Fin 2) []).2 = BoardM.mk (0 : Fin 2) [] := by
  constructor
  · rfl
  · exact (search_push_pop_balanced_on_normal_return okGame).1
      1 (BoardM.mk (0 : Fin 2) []) ⊥ ⊤ (sfin 0, BoardM.mk (0 : Fin 2) []) rfl
